import Mathlib

/-!
Verification of the RandLib statistical computation engine against its
natural-language specification.

The embedding strategy: the C++ code's control flow and exact arithmetic are
translated over `ℚ` (IEEE doubles are modelled as exact rationals, and the
transcendental double-precision routines — `std::exp`, `std::log`, `std::sqrt`,
`std::pow`, `std::tgamma`, `RandMath::factorial`, `RandMath::binomialCoef` —
are abstract function parameters gathered in `MathOps`, since no claim settled
here depends on their numeric values).  The stream of auxiliary standard
variates (uniform, normal, exponential, geometric, Bernoulli) is modelled as a
fixed family of streams `Rng` together with a read position `Pos`; every draw
returns the stream value at the current position and advances it.  The
analytic special function `regularizedBetaFun` (whose implementation file is
not part of the sources) is modelled over `ℝ` from the specification.
-/

namespace RandLib

/-- `RandMath::areClose(a, b, eps)` from `RandMath.h` with the default
tolerance `eps = 1e-6`, documented there as `|a - b| < eps * max(a, b)`. -/
def areClose (a b : ℚ) : Bool :=
  decide (|a - b| < 1e-6 * max a b)

/-- `std::round` on a double: rounding half away from zero. -/
def cppRound (x : ℚ) : ℤ :=
  if 0 ≤ x then ⌊x + 1/2⌋ else ⌈x - 1/2⌉

/-- Conversion of a C++ `double` to `int`: truncation toward zero. -/
def cppTrunc (x : ℚ) : ℤ :=
  if 0 ≤ x then ⌊x⌋ else ⌈x⌉

/-- The transcendental double-precision routines used by the generators,
abstracted as opaque function parameters (floating-point `exp`/`log`/... are
approximations, and no claim settled here depends on their values). -/
structure MathOps where
  exp : ℚ → ℚ
  log : ℚ → ℚ
  sqrt : ℚ → ℚ
  pow : ℚ → ℚ → ℚ
  tgamma : ℚ → ℚ
  factorial : ℚ → ℚ
  binomialCoef : ℤ → ℤ → ℚ

/-- A trivial instantiation of `MathOps`, used to evaluate the generators on
concrete inputs whose control flow never reaches a transcendental call. -/
def opsZ : MathOps :=
  ⟨fun _ => 0, fun _ => 0, fun _ => 0, fun _ _ => 0, fun _ => 0, fun _ => 0,
   fun _ _ => 0⟩

/-- The family of auxiliary standard-variate streams: `expv` are the
`ExponentialRand::standardVariate()` draws, `norm` the
`NormalRand::standardVariate()` draws, `unif` the
`UniformRand::standardVariate()` draws, `geom` the geometric draws produced by
the member generator `G`, `bern` the Bernoulli draws. -/
structure Rng where
  expv : ℕ → ℚ
  norm : ℕ → ℚ
  unif : ℕ → ℚ
  geom : ℕ → ℕ
  bern : ℕ → ℤ

/-- Read positions into the five streams of an `Rng`. -/
structure Pos where
  ei : ℕ
  ni : ℕ
  ui : ℕ
  gi : ℕ
  bi : ℕ
deriving DecidableEq, Repr

/-- Draw one standard-exponential variate. -/
def nextExp (r : Rng) (p : Pos) : ℚ × Pos :=
  (r.expv p.ei, { p with ei := p.ei + 1 })

/-- Draw one standard-normal variate. -/
def nextNorm (r : Rng) (p : Pos) : ℚ × Pos :=
  (r.norm p.ni, { p with ni := p.ni + 1 })

/-- Draw one standard-uniform variate. -/
def nextUnif (r : Rng) (p : Pos) : ℚ × Pos :=
  (r.unif p.ui, { p with ui := p.ui + 1 })

/-- Draw one geometric variate from the member generator `G`. -/
def nextGeom (r : Rng) (p : Pos) : ℕ × Pos :=
  (r.geom p.gi, { p with gi := p.gi + 1 })

/-- Draw one Bernoulli variate (`BernoulliRand::standardVariate()` and
`BernoulliRand::variate(p)` are both draws from this stream; their
implementation file is not part of the sources, and only the fact that
each call consumes one draw matters here). -/
def nextBern (r : Rng) (p : Pos) : ℤ × Pos :=
  (r.bern p.bi, { p with bi := p.bi + 1 })

/-- A concrete stream family in which every draw has value one. -/
def rngOne : Rng :=
  ⟨fun _ => 1, fun _ => 1, fun _ => 1, fun _ => 1, fun _ => 1⟩

/-- The initial read position. -/
def pos0 : Pos := ⟨0, 0, 0, 0, 0⟩

/-!
## The `ContinuousDistribution` generic algorithms (`src/unnamed/part_000`)

The abstract base class is modelled as a structure bundling the virtual
capability set used by the generic algorithms: the density `f`, the cumulative
function `F`, `Mean()` (where `none` models a NaN or infinite mean) and
`Variance()`.
-/

/-- The capability set of `ContinuousDistribution` as seen by its generic
algorithms: density `f`, cumulative `F`, `Mean()` (with `none` modelling a NaN
or infinite value) and `Variance()`. -/
structure ContinuousDistribution where
  f : ℚ → ℚ
  F : ℚ → ℚ
  mean : Option ℚ
  variance : ℚ

/-- The element-wise write loop of
`ContinuousDistribution::ProbabilityDensityFunction`: `y[i] = f(x[i])` for
`i = 0 .. x.size() - 1`, the remaining entries of `y` untouched. -/
def writeDensityValues (f : ℚ → ℚ) : List ℚ → List ℚ → List ℚ
  | [], ys => ys
  | _ :: _, [] => []
  | x :: xs, _ :: ys => f x :: writeDensityValues f xs ys

/-- `ContinuousDistribution::ProbabilityDensityFunction(x, y)`: silently
returns (leaving `y` unchanged) when `x.size() > y.size()`, otherwise writes
`f(x[i])` into `y[i]` for each index of `x`. -/
def ProbabilityDensityFunction (D : ContinuousDistribution)
    (x y : List ℚ) : List ℚ :=
  if y.length < x.length then y else writeDensityValues D.f x y

/-- Result type of `ContinuousDistribution::Quantile`: a finite double, NaN,
or `+∞`. -/
inductive QuantileResult where
  | val (x : ℚ)
  | nan
  | inf
deriving DecidableEq, Repr

/-- `ContinuousDistribution::Quantile(p)`.  The Newton root-finder
`RandMath::findRoot` (whose implementation file is not part of the sources) is
abstracted as an oracle `fr` taking the function, its derivative and the
starting point, and returning `some root` on success and `none` on failure;
the rest is translated from `src/unnamed/part_000`: NaN outside `[0,1]`, seed
at `Mean()` (or `0` when the mean is NaN or infinite), search for
`F(x) - p = 0` with derivative `f`, `+∞` on root-finder failure. -/
def Quantile (fr : (ℚ → ℚ) → (ℚ → ℚ) → ℚ → Option ℚ)
    (D : ContinuousDistribution) (p : ℚ) : QuantileResult :=
  if p < 0 ∨ 1 < p then .nan
  else
    match fr (fun x => D.F x - p) D.f (D.mean.getD 0) with
    | some root => .val root
    | none => .inf

/-- The integrand `g(x) * f(x)` of `ContinuousDistribution::ExpectedValue`,
with the source's guard returning `0` outright when `g(x) == 0`. -/
def integrandOf (D : ContinuousDistribution) (g : ℚ → ℚ) (x : ℚ) : ℚ :=
  let y := g x
  if y = 0 then 0 else y * D.f x

/-- One direction of the boundary search of
`ContinuousDistribution::ExpectedValue`: step by `step` (which is
`-Variance()` for the lower direction and `+Variance()` for the upper one),
stop successfully as soon as `|φ(x)| ≤ 1e-10`, give up (`none`, modelling the
NaN return) when `fuel` steps (1000 in the source) are exhausted. -/
def boundarySearch (φ : ℚ → ℚ) (step : ℚ) : ℚ → ℕ → Option ℚ
  | _, 0 => none
  | x, fuel + 1 =>
    let x1 := x + step
    if |φ x1| ≤ 1e-10 then some x1 else boundarySearch φ step x1 fuel

/-- Modelled from the spec: the Simpson estimate on one interval, the building
block of `RandMath::integral` (adaptive Simpson quadrature), whose
implementation file is not part of the sources. -/
def simpsonEstimate (f : ℚ → ℚ) (a b : ℚ) : ℚ :=
  (b - a) / 6 * (f a + 4 * f ((a + b) / 2) + f b)

/-- Modelled from the spec: the recursive core of `RandMath::integral`
(adaptive Simpson quadrature; implementation file not in the sources):
recursively bisect, accept a subinterval when the Richardson-style comparison
of the whole-interval and half-interval Simpson estimates falls below the
tolerance (which is halved with the interval), and beyond the depth limit
accept the coarser estimate. -/
def adaptiveSimpsonAux (f : ℚ → ℚ) : ℕ → ℚ → ℚ → ℚ → ℚ → ℚ
  | 0, _, a, b, _ =>
    let c := (a + b) / 2
    simpsonEstimate f a c + simpsonEstimate f c b
  | depth + 1, eps, a, b, S =>
    let c := (a + b) / 2
    let Sl := simpsonEstimate f a c
    let Sr := simpsonEstimate f c b
    if |Sl + Sr - S| ≤ 15 * eps then Sl + Sr + (Sl + Sr - S) / 15
    else
      adaptiveSimpsonAux f depth (eps / 2) a c Sl +
        adaptiveSimpsonAux f depth (eps / 2) c b Sr

/-- Modelled from the spec: `RandMath::integral(funPtr, a, b, epsilon)` with
the default maximum recursion depth 10 declared in `RandMath.h`. -/
def integral (f : ℚ → ℚ) (a b eps : ℚ) : ℚ :=
  adaptiveSimpsonAux f 10 eps a b (simpsonEstimate f a b)

/-- `ContinuousDistribution::ExpectedValue(funPtr, startPoint)`: search a
lower boundary downward and an upper boundary upward by `Variance()` per step
(1000 steps each at most, `none` — the NaN return — if either search is
exhausted), then integrate the guarded integrand over the discovered bounds
with tolerance `1e-10`. -/
def ExpectedValue (D : ContinuousDistribution) (g : ℚ → ℚ)
    (startPoint : ℚ) : Option ℚ :=
  let φ := integrandOf D g
  let var := D.variance
  match boundarySearch φ (-var) startPoint 1000 with
  | none => none
  | some lowerBoundary =>
    match boundarySearch φ var startPoint 1000 with
    | none => none
    | some upperBoundary =>
      some (integral φ lowerBoundary upperBoundary (1e-10))

/-!
## The Gamma-family generator
(`src/distributions/univariate/continuous/GammaRand.cpp`)
-/

/-- Double-precision value of the constant `M_SQRT2` (approximated; no claim
settled here depends on it). -/
def M_SQRT2 : ℚ := 1.4142135623730951

/-- Double-precision value of the constant `M_SQRT3` (approximated; no claim
settled here depends on it). -/
def M_SQRT3 : ℚ := 1.7320508075688772

/-- Double-precision value of the constant `M_1_E = 1/e` (approximated; no
claim settled here depends on it). -/
def M_1_E : ℚ := 0.36787944117144233

/-- Double-precision value of the constant `M_PI` (approximated; no claim
settled here depends on it). -/
def M_PI : ℚ := 3.141592653589793

/-- Double-precision value of the constant `M_SQRT2PI` (approximated; no
claim settled here depends on it). -/
def M_SQRT2PI : ℚ := 2.5066282746310002

/-- The constants `m, s_2, s, d, b, w, v, c` set by
`GammaRand::setConstantsForGenerator` for the large-shape generator. -/
structure GammaGenConstants where
  m : ℚ
  s_2 : ℚ
  s : ℚ
  d : ℚ
  b : ℚ
  w : ℚ
  v : ℚ
  c : ℚ
deriving DecidableEq, Repr

/-- The parameter/derived-constant bundle of a `GammaRand` instance. -/
structure GammaRand where
  alpha : ℚ
  theta : ℚ
  beta : ℚ
  alphaInv : ℚ
  cdfCoef : ℚ
  pdfCoef : ℚ
  variateCoef : ℚ
  gen : GammaGenConstants
deriving DecidableEq, Repr

/-- A `GammaRand` record with every field zero: the state of the raw object
before its constructor runs `setParameters`. -/
def gammaInit : GammaRand :=
  ⟨0, 0, 0, 0, 0, 0, 0, ⟨0, 0, 0, 0, 0, 0, 0, 0⟩⟩

/-- `GammaRand::setConstantsForGenerator`, translated line by line. -/
def setConstantsForGenerator (ops : MathOps) (alpha : ℚ) : GammaGenConstants :=
  let m := alpha - 1
  let s_2 := ops.sqrt (8 * alpha / 3) + alpha
  let s := ops.sqrt s_2
  let d := M_SQRT2 * M_SQRT3 * s_2
  let b := d + m
  let w := s_2 / (m - 1)
  let v := (s_2 + s_2) / (m * ops.sqrt alpha)
  let c := b + ops.log (s * d / b) - m - m - 3.7203285
  ⟨m, s_2, s, d, b, w, v, c⟩

/-- `GammaRand::setParameters(shape, scale)`: clamp non-positive shape and
scale to 1, snap a shape within closeness tolerance of an integer to that
integer (choosing the factorial-based cdf coefficient there and the
`tgamma`-based one otherwise), recompute the derived coefficients, and refresh
the large-shape generator constants only when the (snapped) shape exceeds 3 —
otherwise they keep their previous contents, taken here from `old`. -/
def GammaRand.setParameters (ops : MathOps) (old : GammaRand)
    (shape scale : ℚ) : GammaRand :=
  let alpha0 := if shape ≤ 0 then 1 else shape
  let alphaInv := 1 / alpha0
  let theta := if scale ≤ 0 then 1 else scale
  let beta := 1 / theta
  let alphaRound : ℚ := cppRound alpha0
  let alpha := if areClose alpha0 alphaRound then alphaRound else alpha0
  let cdfCoef :=
    if areClose alpha0 alphaRound then 1 / ops.factorial (alphaRound - 1)
    else 1 / ops.tgamma alpha0
  let pdfCoef := cdfCoef * ops.pow beta alpha
  let variateCoef := alphaInv + M_1_E
  let gen := if 3 < alpha then setConstantsForGenerator ops alpha else old.gen
  ⟨alpha, theta, beta, alphaInv, cdfCoef, pdfCoef, variateCoef, gen⟩

/-- `GammaRand::f(x)`: the density `pdfCoef * x^(alpha-1) * exp(-x*beta)`,
zero for negative `x`. -/
def GammaRand.f (ops : MathOps) (G : GammaRand) (x : ℚ) : ℚ :=
  if x < 0 then 0
  else G.pdfCoef * (ops.pow x (G.alpha - 1) * ops.exp (-x * G.beta))

/-- Sum of `k` consecutive standard-exponential draws. -/
def drawExpSum (r : Rng) : ℕ → Pos → ℚ × Pos
  | 0, p => (0, p)
  | k + 1, p =>
    let wp := nextExp r p
    let rest := drawExpSum r k wp.2
    (wp.1 + rest.1, rest.2)

/-- `GammaRand::variateForIntegerShape`: the loop
`for (int i = 0; i < alpha; ++i) rv += Exp::standardVariate()` runs
`⌈alpha⌉` times (for the positive `alpha` of a configured instance). -/
def GammaRand.variateForIntegerShape (G : GammaRand) (r : Rng) (p : Pos) :
    ℚ × Pos :=
  drawExpSum r (Int.toNat ⌈G.alpha⌉) p

/-- `GammaRand::variateForHalfIntegerShape`: the exponential-sum loop runs
while `i < alpha - 1` (hence `⌈alpha - 1⌉` times), then adds half the square
of one standard-normal draw. -/
def GammaRand.variateForHalfIntegerShape (G : GammaRand) (r : Rng) (p : Pos) :
    ℚ × Pos :=
  let sp := drawExpSum r (Int.toNat ⌈G.alpha - 1⌉) p
  let np := nextNorm r sp.2
  (sp.1 + 1/2 * np.1 * np.1, np.2)

/-- The iteration cap `1e9` of the rejection loops (`/// one billion should
be enough` in the source). -/
def billion : ℕ := 1000000000

/-- `GammaRand::variateForSmallShape` (Ahrens-Dieter-style accept/reject),
with the source's one-billion iteration cap as fuel; `none` models the NaN
returned when the cap is exhausted. -/
def GammaRand.variateForSmallShape (ops : MathOps) (G : GammaRand) (r : Rng) :
    ℕ → Pos → Option ℚ × Pos
  | 0, p => (none, p)
  | fuel + 1, p =>
    let up := nextUnif r p
    let pr := G.alpha * G.variateCoef * up.1
    let wp := nextExp r up.2
    if pr ≤ 1 then
      let rv := ops.pow pr G.alphaInv
      if rv ≤ wp.1 then (some rv, wp.2)
      else GammaRand.variateForSmallShape ops G r fuel wp.2
    else
      let rv := -ops.log (G.variateCoef * (1 - up.1))
      if (1 - G.alpha) * ops.log rv ≤ wp.1 then (some rv, wp.2)
      else GammaRand.variateForSmallShape ops G r fuel wp.2

/-- `GammaRand::variateForMediumShape` (two-exponential rejection).  The loop
in the source has no iteration cap; it is modelled with fuel, `none` standing
for a diverging run. -/
def GammaRand.variateForMediumShape (ops : MathOps) (G : GammaRand) (r : Rng) :
    ℕ → Pos → Option ℚ × Pos
  | 0, p => (none, p)
  | fuel + 1, p =>
    let w1 := nextExp r p
    let w2 := nextExp r w1.2
    if w2.1 < (G.alpha - 1) * (w1.1 - ops.log w1.1 - 1) then
      GammaRand.variateForMediumShape ops G r fuel w2.2
    else (some (G.alpha * w1.1), w2.2)

/-- The inner `do { N = normal; rv = s*N + m } while (rv < 0 || rv > b)` loop
of `GammaRand::variateForLargeShape`; it has no cap in the source and is
modelled with fuel. -/
def drawTruncatedNormal (G : GammaRand) (r : Rng) :
    ℕ → Pos → Option (ℚ × ℚ) × Pos
  | 0, p => (none, p)
  | fuel + 1, p =>
    let np := nextNorm r p
    let rv := G.gen.s * np.1 + G.gen.m
    if rv < 0 ∨ G.gen.b < rv then drawTruncatedNormal G r fuel np.2
    else (some (np.1, rv), np.2)

/-- `GammaRand::variateForLargeShape` (two-stage rejection with the
precomputed constants), with the source's one-billion iteration cap as fuel. -/
def GammaRand.variateForLargeShape (ops : MathOps) (G : GammaRand) (r : Rng) :
    ℕ → Pos → Option ℚ × Pos
  | 0, p => (none, p)
  | fuel + 1, p =>
    let up := nextUnif r p
    if up.1 ≤ 0.0095722652 then
      let w1 := nextExp r up.2
      let w2 := nextExp r w1.2
      let rv := G.gen.b * (1 + w1.1 / G.gen.d)
      if G.gen.m * (rv / G.gen.b - ops.log (rv / G.gen.m)) + G.gen.c ≤ w2.1
      then (some rv, w2.2)
      else GammaRand.variateForLargeShape ops G r fuel w2.2
    else
      match drawTruncatedNormal G r billion up.2 with
      | (none, p2) => (none, p2)
      | (some (N, rv), p2) =>
        let u2 := nextUnif r p2
        let S := 1/2 * N * N
        if 0 < N ∧ u2.1 < 1 - G.gen.w * S then (some rv, u2.2)
        else if ¬0 < N ∧ u2.1 < 1 + S * (G.gen.v * N - G.gen.w) then
          (some rv, u2.2)
        else if ops.log u2.1 < G.gen.m * ops.log (rv / G.gen.m) + G.gen.m - rv + S
        then (some rv, u2.2)
        else GammaRand.variateForLargeShape ops G r fuel u2.2

/-- `GammaRand::variate()`: the regime dispatch of the single-draw entry
point, translated from lines 157-171 of `GammaRand.cpp`.  Note that both the
near-integer branch and the near-half-integer branch call
`variateForIntegerShape`. -/
def GammaRand.variate (ops : MathOps) (G : GammaRand) (r : Rng) (p : Pos) :
    Option ℚ × Pos :=
  if G.alpha < 5 then
    let alphaRound : ℚ := cppRound G.alpha
    if areClose G.alpha alphaRound then
      let vp := G.variateForIntegerShape r p
      (some (G.theta * vp.1), vp.2)
    else if areClose (G.alpha - 0.5) alphaRound then
      let vp := G.variateForIntegerShape r p
      (some (G.theta * vp.1), vp.2)
    else if G.alpha ≤ 1 then
      let vp := G.variateForSmallShape ops r billion p
      (vp.1.map (fun x => G.theta * x), vp.2)
    else if G.alpha ≤ 3 then
      let vp := G.variateForMediumShape ops r billion p
      (vp.1.map (fun x => G.theta * x), vp.2)
    else
      let vp := G.variateForLargeShape ops r billion p
      (vp.1.map (fun x => G.theta * x), vp.2)
  else
    let vp := G.variateForLargeShape ops r billion p
    (vp.1.map (fun x => G.theta * x), vp.2)

/-- Fill `len` slots of an output buffer by repeated draws, threading the
stream position. -/
def fillWith (draw : Pos → Option ℚ × Pos) : ℕ → Pos → List (Option ℚ) × Pos
  | 0, p => ([], p)
  | k + 1, p =>
    let vp := draw p
    let rest := fillWith draw k vp.2
    (vp.1 :: rest.1, rest.2)

/-- `GammaRand::sample(outputData)`: the vectorized entry point, translated
from lines 173-201 of `GammaRand.cpp`; the regime is chosen once per call and
each slot re-invokes the regime's draw.  Note that the near-half-integer
branch calls `variateForHalfIntegerShape`. -/
def GammaRand.sample (ops : MathOps) (G : GammaRand) (len : ℕ) (r : Rng)
    (p : Pos) : List (Option ℚ) × Pos :=
  if G.alpha < 5 then
    let alphaRound : ℚ := cppRound G.alpha
    if areClose G.alpha alphaRound then
      fillWith (fun p =>
        let vp := G.variateForIntegerShape r p
        (some (G.theta * vp.1), vp.2)) len p
    else if areClose (G.alpha - 0.5) alphaRound then
      fillWith (fun p =>
        let vp := G.variateForHalfIntegerShape r p
        (some (G.theta * vp.1), vp.2)) len p
    else if G.alpha ≤ 1 then
      fillWith (fun p =>
        let vp := G.variateForSmallShape ops r billion p
        (vp.1.map (fun x => G.theta * x), vp.2)) len p
    else if G.alpha ≤ 3 then
      fillWith (fun p =>
        let vp := G.variateForMediumShape ops r billion p
        (vp.1.map (fun x => G.theta * x), vp.2)) len p
    else
      fillWith (fun p =>
        let vp := G.variateForLargeShape ops r billion p
        (vp.1.map (fun x => G.theta * x), vp.2)) len p
  else
    fillWith (fun p =>
      let vp := G.variateForLargeShape ops r billion p
      (vp.1.map (fun x => G.theta * x), vp.2)) len p

/-!
## The Binomial-family generator
(`src/distributions/univariate/discrete/BinomialRand.cpp`)
-/

/-- The regime classification of `BinomialRand`. -/
inductive GENERATOR_ID where
  | BERNOULLI_SUM
  | WAITING
  | REJECTION
deriving DecidableEq, Repr

/-- The parameter/derived-constant bundle of a `BinomialRand` instance.
`gProb` records the probability of the member geometric generator `G`. -/
structure BinomialRand where
  n : ℤ
  p : ℚ
  q : ℚ
  np : ℚ
  minpq : ℚ
  npFloor : ℚ
  pFloor : ℚ
  pRes : ℚ
  nqFloor : ℚ
  delta1 : ℚ
  delta2 : ℚ
  sigma1 : ℚ
  sigma2 : ℚ
  c : ℚ
  a1 : ℚ
  a2 : ℚ
  a3 : ℚ
  a4 : ℚ
  coefa3 : ℚ
  coefa4 : ℚ
  logPFloor : ℚ
  logQFloor : ℚ
  logPnpInv : ℚ
  gProb : ℚ

/-- A `BinomialRand` record with every field zero: the state of the raw
object before its constructor runs `setParameters`. -/
def binomialInit : BinomialRand :=
  ⟨0, 0, 0, 0, 0, 0, 0, 0, 0, 0, 0, 0, 0, 0, 0, 0, 0, 0, 0, 0, 0, 0, 0, 0⟩

/-- `BinomialRand::getIdOfUsedGenerator`, translated from lines 118-132. -/
def BinomialRand.getIdOfUsedGenerator (B : BinomialRand) : GENERATOR_ID :=
  if B.n ≤ 3 ∨ (B.n ≤ 13 ∧ 0.025 * ((B.n : ℚ) + 6) < B.minpq)
      ∨ (B.n ≤ 200 ∧ areClose B.p 0.5) then
    .BERNOULLI_SUM
  else if B.npFloor ≤ 12 ∨ (0 < B.pRes ∧ B.npFloor ≤ 16) then .WAITING
  else .REJECTION

/-- `BinomialRand::logProbFloor(k)`:
`log(C(n,k)) + k*logPFloor + (n-k)*logQFloor`. -/
def BinomialRand.logProbFloor (ops : MathOps) (B : BinomialRand) (k : ℤ) : ℚ :=
  ops.log (ops.binomialCoef B.n k) + (k : ℚ) * B.logPFloor
    + ((B.n - k : ℤ) : ℚ) * B.logQFloor

/-- `BinomialRand::setGeneratorConstants`, translated from lines 17-80:
always recompute `minpq`, `npFloor`, `pFloor`, `pRes`; return early for the
Bernoulli-sum regime; set the geometric generator's probability to `minpq`
and return for the waiting regime; otherwise derive the full rejection
envelope (deltas, sigmas, `c`, the four `a` region bounds, the logarithms). -/
def BinomialRand.setGeneratorConstants (ops : MathOps) (B0 : BinomialRand) :
    BinomialRand :=
  let minpq := min B0.p B0.q
  let npFloor : ℚ := (⌊(B0.n : ℚ) * minpq⌋ : ℤ)
  let pFloor := npFloor / (B0.n : ℚ)
  let pRes := if areClose npFloor ((B0.n : ℚ) * minpq) then 0
              else minpq - pFloor
  let B1 := { B0 with minpq := minpq, npFloor := npFloor, pFloor := pFloor,
                      pRes := pRes }
  match B1.getIdOfUsedGenerator with
  | .BERNOULLI_SUM => B1
  | .WAITING => { B1 with gProb := minpq }
  | .REJECTION =>
    let nqFloor := (B1.n : ℚ) - npFloor
    let qFloor := 1 - pFloor
    let B2 := if 0 < pRes then { B1 with gProb := pRes / qFloor } else B1
    let npq := npFloor * qFloor
    let coef := 128 * (B1.n : ℚ) / M_PI
    let delta1a := npq * ops.log (coef * pFloor / (81 * qFloor))
    let delta1 := if 1 < delta1a then ops.sqrt delta1a else 1
    let delta2a := npq * ops.log (coef * qFloor / pFloor)
    let delta2 := if 1 < delta2a then ops.sqrt delta2a else 1
    let npqSqrt := ops.sqrt npq
    let sigma1 := npqSqrt * (1 + 0.25 * delta1 / npFloor)
    let sigma2 := npqSqrt * (1 + 0.25 * delta2 / nqFloor)
    let c := 2 * delta1 / npFloor
    let a1 := 0.5 * ops.exp c * sigma1 * M_SQRT2PI
    let a2 := 0.5 * sigma2 * M_SQRT2PI + a1
    let coefa3 := 0.5 * delta1 / (sigma1 * sigma1)
    let a3 := ops.exp ((1 / nqFloor - coefa3) * delta1) / coefa3 + a2
    let coefa4 := 0.5 * delta2 / (sigma2 * sigma2)
    let a4 := ops.exp (-delta2 * coefa4) / coefa4 + a3
    let logPFloor := ops.log pFloor
    let logQFloor := if pFloor = qFloor then logPFloor else ops.log qFloor
    let B3 := { B2 with nqFloor := nqFloor, delta1 := delta1,
                        delta2 := delta2, sigma1 := sigma1, sigma2 := sigma2,
                        c := c, a1 := a1, a2 := a2, a3 := a3, a4 := a4,
                        coefa3 := coefa3, coefa4 := coefa4,
                        logPFloor := logPFloor, logQFloor := logQFloor }
    { B3 with logPnpInv := B3.logProbFloor ops (cppTrunc npFloor) }

/-- `BinomialRand::setParameters(number, probability)`: clamp `n` to at least
1 and `p` into `[0,1]`, set `q` and `np`, then refresh the generator
constants. -/
def BinomialRand.setParameters (ops : MathOps) (old : BinomialRand)
    (number : ℤ) (probability : ℚ) : BinomialRand :=
  let n := max number 1
  let p := max (min probability 1) 0
  BinomialRand.setGeneratorConstants ops
    { old with n := n, p := p, q := 1 - p, np := (n : ℚ) * p }

/-- The loop of `BinomialRand::variateWaiting`: accumulate `G.variate() + 1`
into `sum` and count iterations in `X` (initially `-1`) until `sum > number`.
Each iteration adds at least 1 to `sum`, so `number.toNat + 1` units of fuel
always suffice. -/
def waitingAux (r : Rng) (number : ℤ) : ℕ → ℤ → ℤ → Pos → ℤ × Pos
  | 0, _, X, p => (X, p)
  | fuel + 1, sum, X, p =>
    let gp := nextGeom r p
    let sum1 := sum + (gp.1 : ℤ) + 1
    if sum1 ≤ number then waitingAux r number fuel sum1 (X + 1) gp.2
    else (X + 1, gp.2)

/-- `BinomialRand::variateWaiting(number)`. -/
def BinomialRand.variateWaiting (r : Rng) (number : ℤ) (p : Pos) : ℤ × Pos :=
  waitingAux r number (number.toNat + 1) 0 (-1) p

/-- `BinomialRand::variateRejection` (the four-region BTPE-style rejection
sampler), translated from lines 134-193 with the source's one-billion
iteration cap as fuel; the source returns `-1` when the cap is exhausted.
`UniformRand::variate(0, a4)` is modelled as `a4` times a standard-uniform
draw. -/
def BinomialRand.variateRejection (ops : MathOps) (B : BinomialRand)
    (r : Rng) : ℕ → Pos → ℤ × Pos
  | 0, p => (-1, p)
  | fuel + 1, p =>
    let up := nextUnif r p
    let U := B.a4 * up.1
    if U ≤ B.a1 then
      let np1 := nextNorm r up.2
      let Y := B.sigma1 * |np1.1|
      if B.delta1 ≤ Y then BinomialRand.variateRejection ops B r fuel np1.2
      else
        let wp := nextExp r np1.2
        let X := (⌊Y⌋ : ℚ) + B.npFloor
        let V := -wp.1 - 1/2 * np1.1 * np1.1 + B.c
        if 0 ≤ X ∧ X ≤ (B.n : ℚ)
            ∧ V ≤ B.logProbFloor ops (cppTrunc X) - B.logPnpInv then
          (cppTrunc X, wp.2)
        else BinomialRand.variateRejection ops B r fuel wp.2
    else if U ≤ B.a2 then
      let np1 := nextNorm r up.2
      let Y := B.sigma2 * |np1.1|
      if B.delta2 ≤ Y then BinomialRand.variateRejection ops B r fuel np1.2
      else
        let wp := nextExp r np1.2
        let X := (⌊-Y⌋ : ℚ) + B.npFloor
        let V := -wp.1 - 1/2 * np1.1 * np1.1
        if 0 ≤ X ∧ X ≤ (B.n : ℚ)
            ∧ V ≤ B.logProbFloor ops (cppTrunc X) - B.logPnpInv then
          (cppTrunc X, wp.2)
        else BinomialRand.variateRejection ops B r fuel wp.2
    else if U ≤ B.a3 then
      let w1 := nextExp r up.2
      let w2 := nextExp r w1.2
      let Y := B.delta1 + w1.1 / B.coefa3
      let X := (⌊Y⌋ : ℚ) + B.npFloor
      let V := -w2.1 - B.coefa3 * Y + B.delta1 / B.nqFloor
      if 0 ≤ X ∧ X ≤ (B.n : ℚ)
          ∧ V ≤ B.logProbFloor ops (cppTrunc X) - B.logPnpInv then
        (cppTrunc X, w2.2)
      else BinomialRand.variateRejection ops B r fuel w2.2
    else
      let w1 := nextExp r up.2
      let w2 := nextExp r w1.2
      let Y := B.delta2 + w1.1 / B.coefa4
      let X := (⌊-Y⌋ : ℚ) + B.npFloor
      let V := -w2.1 - B.coefa4 * Y
      if 0 ≤ X ∧ X ≤ (B.n : ℚ)
          ∧ V ≤ B.logProbFloor ops (cppTrunc X) - B.logPnpInv then
        (cppTrunc X, w2.2)
      else BinomialRand.variateRejection ops B r fuel w2.2

/-- Sum of `k` consecutive Bernoulli draws. -/
def sumBern (r : Rng) : ℕ → Pos → ℤ × Pos
  | 0, p => (0, p)
  | k + 1, p =>
    let bp := nextBern r p
    let rest := sumBern r k bp.2
    (bp.1 + rest.1, rest.2)

/-- `BinomialRand::variateBernoulliSum(number, probability)`: `number`
Bernoulli draws are summed; near `p = 0.5` the source calls
`BernoulliRand::standardVariate()` instead of `BernoulliRand::variate(p)`,
both modelled as draws from the Bernoulli stream. -/
def BinomialRand.variateBernoulliSum (r : Rng) (number : ℤ)
    (probability : ℚ) (p : Pos) : ℤ × Pos :=
  if areClose probability 0.5 then sumBern r number.toNat p
  else sumBern r number.toNat p

/-- `BinomialRand::variate()`, translated from lines 207-230: dispatch on the
regime; reflect by `n - X` when `p > 0.5` (waiting), add a residual waiting
draw when `pRes > 0` and then reflect when `p > 0.5` (rejection). -/
def BinomialRand.variate (ops : MathOps) (B : BinomialRand) (r : Rng)
    (p : Pos) : ℤ × Pos :=
  match B.getIdOfUsedGenerator with
  | .WAITING =>
    let vp := BinomialRand.variateWaiting r B.n p
    ((if B.p ≤ 0.5 then vp.1 else B.n - vp.1), vp.2)
  | .REJECTION =>
    let yp := B.variateRejection ops r billion p
    let yp1 :=
      if 0 < B.pRes then
        let wp := BinomialRand.variateWaiting r (B.n - yp.1) yp.2
        (yp.1 + wp.1, wp.2)
      else yp
    ((if 0.5 < B.p then B.n - yp1.1 else yp1.1), yp1.2)
  | .BERNOULLI_SUM => BinomialRand.variateBernoulliSum r B.n B.p p

/-- Fill `len` integer slots by repeated draws, threading the position. -/
def fillWithInt (draw : Pos → ℤ × Pos) : ℕ → Pos → List ℤ × Pos
  | 0, p => ([], p)
  | k + 1, p =>
    let vp := draw p
    let rest := fillWithInt draw k vp.2
    (vp.1 :: rest.1, rest.2)

/-- The second pass of `BinomialRand::sample` in the rejection regime:
`var += variateWaiting(n - var)` for each slot. -/
def addResidualWaiting (r : Rng) (n : ℤ) : List ℤ → Pos → List ℤ × Pos
  | [], p => ([], p)
  | v :: vs, p =>
    let wp := BinomialRand.variateWaiting r (n - v) p
    let rest := addResidualWaiting r n vs wp.2
    ((v + wp.1) :: rest.1, rest.2)

/-- `BinomialRand::sample(outputData)`, translated from lines 251-298: fill
with zeros when `p == 0`, with `n` when `p` is within closeness tolerance of
1 (both without consuming draws), otherwise dispatch once on the regime; the
rejection regime fills in a first pass, adds residual waiting draws in a
second pass when `pRes > 0`, and reflects in a third pass when `p > 0.5`. -/
def BinomialRand.sample (ops : MathOps) (B : BinomialRand) (buffer : List ℤ)
    (r : Rng) (p : Pos) : List ℤ × Pos :=
  if B.p = 0 then (buffer.map (fun _ => 0), p)
  else if areClose B.p 1 then (buffer.map (fun _ => B.n), p)
  else
    match B.getIdOfUsedGenerator with
    | .WAITING =>
      if B.p ≤ 0.5 then
        fillWithInt (fun p => BinomialRand.variateWaiting r B.n p)
          buffer.length p
      else
        fillWithInt (fun p =>
          let vp := BinomialRand.variateWaiting r B.n p
          (B.n - vp.1, vp.2)) buffer.length p
    | .REJECTION =>
      let pass1 := fillWithInt (fun p => B.variateRejection ops r billion p)
        buffer.length p
      let pass2 :=
        if 0 < B.pRes then addResidualWaiting r B.n pass1.1 pass1.2
        else pass1
      if 0.5 < B.p then (pass2.1.map (fun v => B.n - v), pass2.2) else pass2
    | .BERNOULLI_SUM =>
      fillWithInt (fun p => BinomialRand.variateBernoulliSum r B.n B.p p)
        buffer.length p

/-- `BinomialRand::checkValidity(sample)`: every sample value, converted to
`int` (truncation toward zero, as the source iterates a `double` sample with
`for (int var : sample)`), must lie in `[0, n]`. -/
def BinomialRand.checkValidity (B : BinomialRand) (sample : List ℚ) : Bool :=
  sample.all (fun v => decide (0 ≤ cppTrunc v) && decide (cppTrunc v ≤ B.n))

/-- Modelled from the spec: `RandMath::sampleMean` (implementation file not
in the sources), documented in `RandMath.h` as the arithmetic average. -/
def sampleMean (sample : List ℚ) : ℚ :=
  sample.sum / sample.length

/-- `BinomialRand::fitProbabilityMLE(sample)`: fail closed when
`checkValidity` rejects, otherwise `setParameters(n, mean/n)` and succeed. -/
def BinomialRand.fitProbabilityMLE (ops : MathOps) (B : BinomialRand)
    (sample : List ℚ) : Bool × BinomialRand :=
  if B.checkValidity sample then
    (true, BinomialRand.setParameters ops B B.n (sampleMean sample / (B.n : ℚ)))
  else (false, B)

/-- `BinomialRand::fitProbabilityMM(sample)`: delegates to the MLE fit. -/
def BinomialRand.fitProbabilityMM (ops : MathOps) (B : BinomialRand)
    (sample : List ℚ) : Bool × BinomialRand :=
  B.fitProbabilityMLE ops sample

/-- The `BetaRand` prior of `fitProbabilityBayes`, reduced to its parameter
pair; the class itself is not part of the sources, and its `Mean()` is
abstracted as an oracle argument below. -/
structure BetaPrior where
  alpha : ℚ
  beta : ℚ
deriving DecidableEq, Repr

/-- `BinomialRand::fitProbabilityBayes(sample, priorDistribution)`, translated
from lines 360-369: with NO validity check, reparameterize the prior to
`(sum + alpha, N*n - sum + beta)`, set `p` to the posterior mean (`betaMean`
abstracts `BetaRand::Mean()`, whose implementation is not in the sources) and
return `true` unconditionally. -/
def BinomialRand.fitProbabilityBayes (ops : MathOps)
    (betaMean : ℚ → ℚ → ℚ) (B : BinomialRand) (prior : BetaPrior)
    (sample : List ℚ) : Bool × BinomialRand × BetaPrior :=
  let N : ℚ := sample.length
  let sum := sample.sum
  let prior1 : BetaPrior :=
    ⟨sum + prior.alpha, N * (B.n : ℚ) - sum + prior.beta⟩
  (true,
   BinomialRand.setParameters ops B B.n (betaMean prior1.alpha prior1.beta),
   prior1)

/-!
## Helper lemmas
-/

section WriteDensityLemmas

variable (f : ℚ → ℚ)

/-- Writing densities preserves the output buffer's length when it is at
least as long as the input. -/
theorem writeDensityValues_length : ∀ (xs ys : List ℚ),
    xs.length ≤ ys.length →
    (writeDensityValues f xs ys).length = ys.length := by
  intro xs
  induction xs with
  | nil => intro ys _; rfl
  | cons x xs ih =>
    intro ys h
    cases ys with
    | nil => simp at h
    | cons y ys =>
      simp only [writeDensityValues, List.length_cons]
      exact congrArg Nat.succ (ih ys (by simpa using h))

/-- Within the input's range, the written buffer holds the mapped
densities. -/
theorem writeDensityValues_get_lt : ∀ (xs ys : List ℚ) (i : ℕ),
    i < xs.length → xs.length ≤ ys.length →
    (writeDensityValues f xs ys)[i]? = (xs[i]?).map f := by
  intro xs
  induction xs with
  | nil => intro ys i h _; simp at h
  | cons x xs ih =>
    intro ys i h hlen
    cases ys with
    | nil => simp at hlen
    | cons y ys =>
      cases i with
      | zero => simp [writeDensityValues]
      | succ i =>
        simp only [writeDensityValues, List.getElem?_cons_succ]
        exact ih ys i (by simpa using h) (by simpa using hlen)

/-- Beyond the input's range, the written buffer keeps its previous
entries. -/
theorem writeDensityValues_get_ge : ∀ (xs ys : List ℚ) (i : ℕ),
    xs.length ≤ i →
    (writeDensityValues f xs ys)[i]? = ys[i]? := by
  intro xs
  induction xs with
  | nil => intro ys i _; rfl
  | cons x xs ih =>
    intro ys i h
    cases ys with
    | nil => rfl
    | cons y ys =>
      cases i with
      | zero => simp at h
      | succ i =>
        simp only [writeDensityValues, List.getElem?_cons_succ]
        exact ih ys i (by simpa using h)

end WriteDensityLemmas

/-!
## Concrete instances used by witnesses and counterexamples
-/

/-- A concrete distribution used to instantiate the generic algorithms. -/
def Dpdf : ContinuousDistribution :=
  ⟨fun q => q + 1, fun _ => 0, some 0, 1⟩

/-- A root-finder oracle that immediately succeeds at its starting point. -/
def frStart : (ℚ → ℚ) → (ℚ → ℚ) → ℚ → Option ℚ := fun _ _ s => some s

/-- A root-finder oracle that always reports failure. -/
def frFail : (ℚ → ℚ) → (ℚ → ℚ) → ℚ → Option ℚ := fun _ _ _ => none

/-- A Gamma instance configured with shape `2.4999999999` (within the 1e-6
relative closeness tolerance of the half-integer 2.5, but not of any integer)
and scale 1. -/
def stG : GammaRand :=
  GammaRand.setParameters opsZ gammaInit 2.4999999999 1

/-- The half-integer-regime draw as the claim (and the spec) describe it:
the integer-part-many independent standard-exponential draws, plus half the
square of one standard-normal draw, scaled by `theta`.  This definition
follows the claim's words, for comparison with the source-derived
`GammaRand.variate`. -/
def specHalfIntegerDraw (G : GammaRand) (r : Rng) (p : Pos) : ℚ × Pos :=
  let sp := drawExpSum r (Int.toNat ⌊G.alpha⌋) p
  let np := nextNorm r sp.2
  (G.theta * (sp.1 + 1/2 * np.1 * np.1), np.2)

/-!
## Claim theorems
-/

/-- C9: `ProbabilityDensityFunction(x, y)` writes `density(x[i])` into `y[i]`
for exactly the first `x.size()` positions when `y.size() ≥ x.size()`,
leaving the remaining elements of `y` unchanged; when `y.size() < x.size()`
it returns silently with `y` entirely unchanged. -/
theorem probabilityDensityFunctionSpec (D : ContinuousDistribution)
    (x y : List ℚ) :
    (y.length < x.length → ProbabilityDensityFunction D x y = y) ∧
    (x.length ≤ y.length →
      (ProbabilityDensityFunction D x y).length = y.length ∧
      (∀ i : ℕ, i < x.length →
        (ProbabilityDensityFunction D x y)[i]? = (x[i]?).map D.f) ∧
      (∀ i : ℕ, x.length ≤ i →
        (ProbabilityDensityFunction D x y)[i]? = y[i]?)) := by
  constructor
  · intro h
    simp only [ProbabilityDensityFunction, if_pos h]
  · intro h
    have hno : ¬y.length < x.length := not_lt.mpr h
    refine ⟨?_, fun i hi => ?_, fun i hi => ?_⟩
    · simp only [ProbabilityDensityFunction, if_neg hno]
      exact writeDensityValues_length D.f x y h
    · simp only [ProbabilityDensityFunction, if_neg hno]
      exact writeDensityValues_get_lt D.f x y i hi h
    · simp only [ProbabilityDensityFunction, if_neg hno]
      exact writeDensityValues_get_ge D.f x y i hi

/-- Witness for C9 at the input `x = [1, 2]`, `y = [0, 0, 5]`. -/
theorem probabilityDensityFunctionSpecWitness :
    (ProbabilityDensityFunction Dpdf [1, 2] [0, 0, 5]).length = 3 ∧
    (ProbabilityDensityFunction Dpdf [1, 2] [0, 0, 5])[1]? =
      (([1, 2] : List ℚ)[1]?).map Dpdf.f ∧
    (ProbabilityDensityFunction Dpdf [1, 2] [0, 0, 5])[2]? =
      ([0, 0, 5] : List ℚ)[2]? ∧
    ProbabilityDensityFunction Dpdf [1, 2, 3, 4] [0, 0, 5] = [0, 0, 5] := by
  refine ⟨?_, ?_, ?_, ?_⟩
  · exact ((probabilityDensityFunctionSpec Dpdf [1, 2] [0, 0, 5]).2
      (by decide)).1
  · exact (((probabilityDensityFunctionSpec Dpdf [1, 2] [0, 0, 5]).2
      (by decide)).2).1 1 (by decide)
  · exact (((probabilityDensityFunctionSpec Dpdf [1, 2] [0, 0, 5]).2
      (by decide)).2).2 2 (by decide)
  · exact (probabilityDensityFunctionSpec Dpdf [1, 2, 3, 4] [0, 0, 5]).1
      (by decide)

/-- C4: `Quantile(p)` returns NaN when `p < 0` or `p > 1`; otherwise it
starts the Newton root search for `cumulative(x) - p = 0` at `Mean()` (or at
0 when the mean is NaN or infinite, which is what `D.mean.getD 0` computes),
passing `density` as the derivative; it returns the found root on success and
`+∞` when the root-finder reports failure. -/
theorem quantileSpec (fr : (ℚ → ℚ) → (ℚ → ℚ) → ℚ → Option ℚ)
    (D : ContinuousDistribution) (p : ℚ) :
    ((p < 0 ∨ 1 < p) → Quantile fr D p = .nan) ∧
    (0 ≤ p → p ≤ 1 →
      (∀ root, fr (fun x => D.F x - p) D.f (D.mean.getD 0) = some root →
        Quantile fr D p = .val root) ∧
      (fr (fun x => D.F x - p) D.f (D.mean.getD 0) = none →
        Quantile fr D p = .inf)) := by
  constructor
  · intro h
    simp only [Quantile, if_pos h]
  · intro h0 h1
    have hno : ¬(p < 0 ∨ 1 < p) := by
      rintro (h | h) <;> linarith
    constructor
    · intro root hr
      simp only [Quantile, if_neg hno, hr]
    · intro hr
      simp only [Quantile, if_neg hno, hr]

/-- Witness for C4 at `p = 1/2` (success and failure oracles) and at the
out-of-range `p = 2`. -/
theorem quantileSpecWitness :
    Quantile frStart Dpdf (1/2) = .val 0 ∧
    Quantile frFail Dpdf (1/2) = .inf ∧
    Quantile frStart Dpdf 2 = .nan := by
  refine ⟨?_, ?_, ?_⟩
  · exact ((quantileSpec frStart Dpdf (1/2)).2 (by norm_num) (by norm_num)).1
      0 rfl
  · exact ((quantileSpec frFail Dpdf (1/2)).2 (by norm_num) (by norm_num)).2
      rfl
  · exact (quantileSpec frStart Dpdf 2).1 (by norm_num)

/-- C5: configuring a Gamma instance never fails; a non-positive shape
argument produces exactly the state an explicit shape-1 configuration
produces (in particular the same density), a non-positive scale argument
produces exactly the state an explicit scale-1 configuration produces, and —
since the full records coincide — every derived constant is consistent with
the clamped values. -/
theorem gammaSetParametersClamp (ops : MathOps) (old : GammaRand)
    (shape scale x : ℚ) :
    (shape ≤ 0 →
      GammaRand.setParameters ops old shape scale =
        GammaRand.setParameters ops old 1 scale) ∧
    (scale ≤ 0 →
      GammaRand.setParameters ops old shape scale =
        GammaRand.setParameters ops old shape 1) ∧
    (shape ≤ 0 →
      (GammaRand.setParameters ops old shape scale).f ops x =
        (GammaRand.setParameters ops old 1 scale).f ops x) := by
  have hone : ¬(1 : ℚ) ≤ 0 := by norm_num
  have hshape : ∀ h : shape ≤ 0,
      GammaRand.setParameters ops old shape scale =
        GammaRand.setParameters ops old 1 scale := by
    intro h
    have e1 : (if shape ≤ 0 then (1 : ℚ) else shape) =
        (if (1 : ℚ) ≤ 0 then (1 : ℚ) else 1) := by
      rw [if_pos h, if_neg hone]
    simp only [GammaRand.setParameters, e1]
  refine ⟨hshape, ?_, ?_⟩
  · intro h
    have e2 : (if scale ≤ 0 then (1 : ℚ) else scale) =
        (if (1 : ℚ) ≤ 0 then (1 : ℚ) else 1) := by
      rw [if_pos h, if_neg hone]
    simp only [GammaRand.setParameters, e2]
  · intro h
    rw [hshape h]

/-- Witness for C5 at shape `-1` and scale `-2`. -/
theorem gammaSetParametersClampWitness :
    GammaRand.setParameters opsZ gammaInit (-1) 7 =
      GammaRand.setParameters opsZ gammaInit 1 7 ∧
    GammaRand.setParameters opsZ gammaInit 7 (-2) =
      GammaRand.setParameters opsZ gammaInit 7 1 ∧
    (GammaRand.setParameters opsZ gammaInit (-1) 7).f opsZ 3 =
      (GammaRand.setParameters opsZ gammaInit 1 7).f opsZ 3 := by
  refine ⟨?_, ?_, ?_⟩
  · exact (gammaSetParametersClamp opsZ gammaInit (-1) 7 3).1 (by norm_num)
  · exact (gammaSetParametersClamp opsZ gammaInit 7 (-2) 3).2.1 (by norm_num)
  · exact (gammaSetParametersClamp opsZ gammaInit (-1) 7 3).2.2 (by norm_num)

/-- Unfolding lemma for `areClose`, phrased for numeric evaluation. -/
theorem areCloseNum (a b : ℚ) :
    (areClose a b = true) ↔ |a - b| < 1e-6 * max a b := by
  simp [areClose]

/-- Evaluation of the concrete instance `stG`: the shape survives unclamped
and unsnapped, the scale is 1, and (under the trivial `opsZ`) the
coefficients collapse to rationals. -/
theorem stGEval :
    stG = GammaRand.mk 2.4999999999 1 1 (1 / 2.4999999999) 0 0
      (1 / 2.4999999999 + M_1_E) ⟨0, 0, 0, 0, 0, 0, 0, 0⟩ := by
  simp only [stG, GammaRand.setParameters, areClose, cppRound, opsZ,
    gammaInit]
  norm_num [abs_of_pos, max_def]

/-- Ceiling evaluation used when running the exponential-sum loop at shape
`2.4999999999`. -/
theorem ceilStG1 : (⌈(24999999999 / 10000000000 : ℚ)⌉).toNat = 3 := by
  have h : ⌈(24999999999 / 10000000000 : ℚ)⌉ = 3 := by
    rw [Int.ceil_eq_iff]
    norm_num
  rw [h]
  rfl

/-- Ceiling evaluation used when running the exponential-sum loop of the
half-integer algorithm at shape `2.4999999999`. -/
theorem ceilStG2 : (⌈(14999999999 / 10000000000 : ℚ)⌉).toNat = 2 := by
  have h : ⌈(14999999999 / 10000000000 : ℚ)⌉ = 2 := by
    rw [Int.ceil_eq_iff]
    norm_num
  rw [h]
  rfl

/-- Floor evaluation giving the integer part of the shape `2.4999999999`. -/
theorem floorStG1 : (⌊(24999999999 / 10000000000 : ℚ)⌋).toNat = 2 := by
  have h : ⌊(24999999999 / 10000000000 : ℚ)⌋ = 2 := by
    rw [Int.floor_eq_iff]
    norm_num
  rw [h]
  rfl

/-- C1: at shape `2.4999999999` — which `variate()` routes through its
near-half-integer branch (fourth conjunct) — the single-draw `variate()`
returns `θ` times a sum of THREE standard-exponential draws (it calls
`variateForIntegerShape`), while the claim describes the integer-part-many
(two) exponential draws plus half a squared normal draw: with every stream
value 1 the code yields 3 but the described draw yields 5/2.  The described
behaviour is the one `sample()` implements (see the C3 theorem), marking the
`variate()` branch as a slip. -/
theorem gammaVariateHalfIntegerBug :
    (GammaRand.variate opsZ stG rngOne pos0).1 = some 3 ∧
    (specHalfIntegerDraw stG rngOne pos0).1 = 5/2 ∧
    ((5 : ℚ)/2 ≠ 3) ∧
    areClose (stG.alpha - 0.5) ((cppRound stG.alpha : ℤ) : ℚ) = true ∧
    stG.alpha < 5 := by
  rw [stGEval]
  refine ⟨?_, ?_, by norm_num, ?_, by norm_num⟩
  · rw [GammaRand.variate]
    norm_num [areCloseNum, cppRound, GammaRand.variateForIntegerShape,
      drawExpSum, nextExp, rngOne, pos0, abs_of_pos, max_def, ceilStG1]
  · rw [specHalfIntegerDraw]
    norm_num [drawExpSum, nextExp, nextNorm, rngOne, pos0, floorStG1]
  · rw [areCloseNum]
    norm_num [cppRound, abs_of_pos, max_def]

/-- C3: at shape `2.4999999999` the vectorized `sample()` fills a slot using
`variateForHalfIntegerShape` (yielding 5/2 on unit streams) while `variate()`
uses `variateForIntegerShape` on the very same stream position (yielding 3),
so the per-slot draw of `sample` is NOT the draw algorithm of `variate` for
these parameters. -/
theorem gammaSampleVariateMismatch :
    (GammaRand.sample opsZ stG 1 rngOne pos0).1 = [some (5/2)] ∧
    (GammaRand.variate opsZ stG rngOne pos0).1 = some 3 ∧
    some ((5 : ℚ)/2) ≠ some (3 : ℚ) := by
  rw [stGEval]
  refine ⟨?_, ?_, by norm_num⟩
  · rw [GammaRand.sample]
    norm_num [areCloseNum, cppRound, fillWith,
      GammaRand.variateForHalfIntegerShape, drawExpSum, nextExp, nextNorm,
      rngOne, pos0, abs_of_pos, max_def, ceilStG2]
  · rw [GammaRand.variate]
    norm_num [areCloseNum, cppRound, GammaRand.variateForIntegerShape,
      drawExpSum, nextExp, rngOne, pos0, abs_of_pos, max_def, ceilStG1]

/-!
## Stream-consumption lemmas for the Binomial generator
-/

section Consumption

variable (r : Rng) (number : ℤ)

/-- The waiting loop never touches the uniform stream. -/
theorem waitingAux_ui : ∀ (fuel : ℕ) (sum X : ℤ) (p : Pos),
    (waitingAux r number fuel sum X p).2.ui = p.ui := by
  intro fuel
  induction fuel with
  | zero => intro sum X p; rfl
  | succ fuel ih =>
    intro sum X p
    rw [waitingAux]
    dsimp only [nextGeom]
    split
    · rw [ih]
    · rfl

/-- The waiting loop only advances the geometric stream. -/
theorem waitingAux_gi_le : ∀ (fuel : ℕ) (sum X : ℤ) (p : Pos),
    p.gi ≤ (waitingAux r number fuel sum X p).2.gi := by
  intro fuel
  induction fuel with
  | zero => intro sum X p; exact le_rfl
  | succ fuel ih =>
    intro sum X p
    rw [waitingAux]
    dsimp only [nextGeom]
    split
    · refine le_trans ?_ (ih _ _ _)
      dsimp only
      omega
    · dsimp only
      omega

/-- With at least one unit of fuel, the waiting loop consumes at least one
geometric draw. -/
theorem waitingAux_gi_lt (fuel : ℕ) (sum X : ℤ) (p : Pos) (h : 0 < fuel) :
    p.gi < (waitingAux r number fuel sum X p).2.gi := by
  obtain ⟨fuel, rfl⟩ := Nat.exists_eq_succ_of_ne_zero (Nat.pos_iff_ne_zero.mp h)
  rw [waitingAux]
  dsimp only [nextGeom]
  split
  · refine lt_of_lt_of_le ?_ (waitingAux_gi_le r number _ _ _ _)
    dsimp only
    omega
  · dsimp only
    omega

/-- `variateWaiting` consumes at least one geometric draw. -/
theorem variateWaiting_gi_lt (p : Pos) :
    p.gi < (BinomialRand.variateWaiting r number p).2.gi :=
  waitingAux_gi_lt r number _ _ _ p (Nat.succ_pos _)

/-- `variateWaiting` does not consume uniform draws. -/
theorem variateWaiting_ui (p : Pos) :
    (BinomialRand.variateWaiting r number p).2.ui = p.ui :=
  waitingAux_ui r number _ _ _ p

/-- The Bernoulli-sum helper consumes exactly its count of Bernoulli
draws. -/
theorem sumBern_bi : ∀ (k : ℕ) (p : Pos),
    (sumBern r k p).2.bi = p.bi + k := by
  intro k
  induction k with
  | zero => intro p; rfl
  | succ k ih =>
    intro p
    rw [sumBern]
    dsimp only [nextBern]
    rw [ih]
    dsimp only
    omega

/-- `variateBernoulliSum` consumes exactly `number.toNat` Bernoulli draws. -/
theorem variateBernoulliSum_bi (probability : ℚ) (p : Pos) :
    (BinomialRand.variateBernoulliSum r number probability p).2.bi =
      p.bi + number.toNat := by
  rw [BinomialRand.variateBernoulliSum]
  split
  · exact sumBern_bi r _ p
  · exact sumBern_bi r _ p

end Consumption

section RejectionConsumption

variable (ops : MathOps) (B : BinomialRand) (r : Rng)

/-- The rejection sampler only advances the uniform stream forward. -/
theorem variateRejection_ui_le : ∀ (fuel : ℕ) (p : Pos),
    p.ui ≤ (B.variateRejection ops r fuel p).2.ui := by
  intro fuel
  induction fuel with
  | zero => intro p; exact le_rfl
  | succ fuel ih =>
    intro p
    rw [BinomialRand.variateRejection]
    dsimp only [nextUnif, nextNorm, nextExp]
    repeat' split
    all_goals
      first
      | (refine le_trans ?_ (ih _)
         dsimp only
         omega)
      | (dsimp only
         omega)

/-- With at least one unit of fuel, the rejection sampler consumes at least
one uniform draw. -/
theorem variateRejection_ui_lt (fuel : ℕ) (p : Pos) (h : 0 < fuel) :
    p.ui < (B.variateRejection ops r fuel p).2.ui := by
  obtain ⟨fuel, rfl⟩ := Nat.exists_eq_succ_of_ne_zero (Nat.pos_iff_ne_zero.mp h)
  rw [BinomialRand.variateRejection]
  dsimp only [nextUnif, nextNorm, nextExp]
  repeat' split
  all_goals
    first
    | (refine lt_of_lt_of_le ?_ (variateRejection_ui_le ops B r _ _)
       dsimp only
       omega)
    | (dsimp only
       omega)

end RejectionConsumption

/-- C6: in the waiting regime the returned variate is the waiting draw `X`
itself when `p ≤ 0.5` and its reflection `n - X` when `p > 0.5`; in the
rejection regime a residual waiting-time draw is added to the rejection draw
exactly when the rounding residue `pRes` is positive, and the reflection by
`n - X` again happens exactly when `p > 0.5`, after the residual addition. -/
theorem binomialVariateReflection (ops : MathOps) (B : BinomialRand)
    (r : Rng) (pos : Pos) :
    (B.getIdOfUsedGenerator = .WAITING →
      B.variate ops r pos =
        (let w := BinomialRand.variateWaiting r B.n pos
         ((if B.p ≤ 0.5 then w.1 else B.n - w.1), w.2))) ∧
    (B.getIdOfUsedGenerator = .REJECTION →
      B.variate ops r pos =
        (let y := B.variateRejection ops r billion pos
         let y1 := if 0 < B.pRes then
             (let w := BinomialRand.variateWaiting r (B.n - y.1) y.2
              (y.1 + w.1, w.2))
           else y
         ((if 0.5 < B.p then B.n - y1.1 else y1.1), y1.2))) := by
  constructor
  · intro h
    rw [BinomialRand.variate, h]
  · intro h
    rw [BinomialRand.variate, h]

/-- C10: the vectorized `sample` fills the whole buffer with `0` when
`p == 0` and with `n` when `p` is within closeness tolerance of 1, in both
cases consuming no random draws (the stream position is returned untouched);
the single-draw `variate` performs no such short-circuit — for every instance
with `n ≥ 1` (whatever `p` is, including `0` and `1`) it always consumes at
least one draw. -/
theorem binomialSampleShortCircuit (ops : MathOps) (B : BinomialRand)
    (buffer : List ℤ) (r : Rng) (pos : Pos) :
    (B.p = 0 → B.sample ops buffer r pos = (buffer.map (fun _ => 0), pos)) ∧
    (areClose B.p 1 = true →
      B.sample ops buffer r pos = (buffer.map (fun _ => B.n), pos)) ∧
    (1 ≤ B.n → (B.variate ops r pos).2 ≠ pos) := by
  refine ⟨?_, ?_, ?_⟩
  · intro h
    rw [BinomialRand.sample, if_pos h]
  · intro h
    have hp0 : ¬B.p = 0 := by
      intro h0
      rw [h0] at h
      simp only [areClose, decide_eq_true_eq] at h
      norm_num [abs_of_nonpos, max_def] at h
    rw [BinomialRand.sample, if_neg hp0, if_pos h]
  · intro hn
    rcases hg : B.getIdOfUsedGenerator with _ | _ | _
    · simp only [BinomialRand.variate, hg]
      intro heq
      have hb := variateBernoulliSum_bi r B.n B.p pos
      rw [heq] at hb
      omega
    · simp only [BinomialRand.variate, hg]
      intro heq
      have hw := variateWaiting_gi_lt r B.n pos
      rw [heq] at hw
      exact lt_irrefl _ hw
    · simp only [BinomialRand.variate, hg]
      have hbil : 0 < billion := by norm_num [billion]
      by_cases hres : 0 < B.pRes
      · simp only [if_pos hres]
        intro heq
        have hu1 := variateRejection_ui_lt ops B r billion pos hbil
        have hu2 := variateWaiting_ui r
          (B.n - (B.variateRejection ops r billion pos).1)
          (B.variateRejection ops r billion pos).2
        rw [heq] at hu2
        rw [hu2] at hu1
        exact lt_irrefl _ hu1
      · simp only [if_neg hres]
        intro heq
        have hu1 := variateRejection_ui_lt ops B r billion pos hbil
        rw [heq] at hu1
        exact lt_irrefl _ hu1

/-!
## Concrete Binomial instances and their evaluations
-/

/-- Floor evaluation for one half. -/
theorem floorHalfQ : ⌊(1/2 : ℚ)⌋ = 0 := by
  rw [Int.floor_eq_iff]
  norm_num

/-- Floor evaluation for two. -/
theorem floorTwoQ : ⌊(2 : ℚ)⌋ = 2 := by
  rw [Int.floor_eq_iff]
  norm_num

/-- Floor evaluation for three. -/
theorem floorThreeQ : ⌊(3 : ℚ)⌋ = 3 := by
  rw [Int.floor_eq_iff]
  norm_num

/-- Floor evaluation for three halves. -/
theorem floorThreeHalvesQ : ⌊(3/2 : ℚ)⌋ = 1 := by
  rw [Int.floor_eq_iff]
  norm_num

/-- Floor evaluation for three hundred. -/
theorem floor300Q : ⌊(300 : ℚ)⌋ = 300 := by
  rw [Int.floor_eq_iff]
  norm_num

/-- A Binomial instance configured as `Binomial(1, 1/2)`. -/
def B0 : BinomialRand := BinomialRand.setParameters opsZ binomialInit 1 (1/2)

/-- Evaluation of the `Binomial(1, 1/2)` instance (Bernoulli-sum regime). -/
theorem B0Eval : B0 = BinomialRand.mk 1 (1/2) (1/2) (1/2) (1/2) 0 0 (1/2)
    0 0 0 0 0 0 0 0 0 0 0 0 0 0 0 0 := by
  simp only [B0, BinomialRand.setParameters,
    BinomialRand.setGeneratorConstants, BinomialRand.getIdOfUsedGenerator,
    areClose, binomialInit, opsZ]
  norm_num [floorHalfQ, abs_of_nonneg, max_def]

/-- A Binomial instance configured as `Binomial(300, 0.99)`. -/
def stW : BinomialRand :=
  BinomialRand.setParameters opsZ binomialInit 300 (99/100)

/-- `Binomial(300, 0.99)` lands in the waiting regime (its minority
probability is `0.01`, so `⌊n·minpq⌋ = 3 ≤ 12`). -/
theorem stWId : stW.getIdOfUsedGenerator = GENERATOR_ID.WAITING := by
  simp only [stW, BinomialRand.setParameters,
    BinomialRand.setGeneratorConstants, BinomialRand.getIdOfUsedGenerator,
    areClose, binomialInit, opsZ]
  norm_num [floorThreeQ, abs_of_nonneg, abs_of_nonpos, max_def]

/-- A Binomial instance configured as `Binomial(1000, 0.3)`. -/
def stR : BinomialRand :=
  BinomialRand.setParameters opsZ binomialInit 1000 (3/10)

/-- `Binomial(1000, 0.3)` lands in the rejection regime
(`⌊n·minpq⌋ = 300 > 16`). -/
theorem stRId : stR.getIdOfUsedGenerator = GENERATOR_ID.REJECTION := by
  simp only [stR, BinomialRand.setParameters,
    BinomialRand.setGeneratorConstants, BinomialRand.getIdOfUsedGenerator,
    BinomialRand.logProbFloor, areClose, binomialInit, opsZ]
  norm_num [floor300Q, abs_of_nonneg, abs_of_nonpos, max_def, cppTrunc]

/-- A Binomial instance configured as `Binomial(1, 0)`. -/
def B1z : BinomialRand := BinomialRand.setParameters opsZ binomialInit 1 0

/-- Field evaluation of the `Binomial(1, 0)` instance. -/
theorem B1zp : B1z.p = 0 := by
  simp only [B1z, BinomialRand.setParameters,
    BinomialRand.setGeneratorConstants, BinomialRand.getIdOfUsedGenerator,
    areClose, binomialInit, opsZ]
  norm_num [abs_of_nonneg, abs_of_nonpos, max_def]

/-- A Binomial instance configured as `Binomial(1, 1)`. -/
def B2 : BinomialRand := BinomialRand.setParameters opsZ binomialInit 1 1

/-- Field evaluations of the `Binomial(1, 1)` instance: `p = 1` (within
closeness tolerance of 1) and `n = 1`. -/
theorem B2Eval : B2.p = 1 ∧ B2.n = 1 ∧ areClose B2.p 1 = true := by
  have h : B2.p = 1 ∧ B2.n = 1 := by
    constructor
    all_goals
      simp only [B2, BinomialRand.setParameters,
        BinomialRand.setGeneratorConstants, BinomialRand.getIdOfUsedGenerator,
        areClose, binomialInit, opsZ]
      norm_num [abs_of_nonneg, abs_of_nonpos, max_def]
  refine ⟨h.1, h.2, ?_⟩
  rw [h.1]
  simp only [areClose, decide_eq_true_eq]
  norm_num [abs_of_nonneg, max_def]

/-- The mathematical mean of a Beta distribution, used to instantiate the
`BetaRand::Mean()` oracle of `fitProbabilityBayes`. -/
def betaMeanStd : ℚ → ℚ → ℚ := fun a b => a / (a + b)

/-- C2 counterexample: on the `Binomial(1, 1/2)` instance, the sample `[2]`
(whose value exceeds `n = 1`) fails the validity check, yet
`fitProbabilityBayes` returns success and overwrites `p` (from `1/2` to `1`);
moreover the sample `[3/2]` — also outside `[0, 1]` — PASSES the validity
check (the source truncates each value to `int` before comparing) and
`fitProbabilityMLE` then succeeds and overwrites `p`. -/
theorem binomialFitClaimCounterexample :
    B0.checkValidity [2] = false ∧
    (B0.fitProbabilityBayes opsZ betaMeanStd ⟨1, 1⟩ [2]).1 = true ∧
    (B0.fitProbabilityBayes opsZ betaMeanStd ⟨1, 1⟩ [2]).2.1.p = 1 ∧
    B0.p = 1/2 ∧ ((1 : ℚ) ≠ 1/2) ∧
    B0.checkValidity [3/2] = true ∧ ¬((3/2 : ℚ) ≤ (B0.n : ℚ)) ∧
    (B0.fitProbabilityMLE opsZ [3/2]).1 = true ∧
    (B0.fitProbabilityMLE opsZ [3/2]).2.p = 1 := by
  rw [B0Eval]
  refine ⟨?_, rfl, ?_, rfl, by norm_num, ?_, by norm_num, ?_, ?_⟩
  · norm_num [BinomialRand.checkValidity, cppTrunc, floorTwoQ]
  · simp only [BinomialRand.fitProbabilityBayes, betaMeanStd, sampleMean,
      BinomialRand.setParameters, BinomialRand.setGeneratorConstants,
      BinomialRand.getIdOfUsedGenerator, areClose, opsZ]
    norm_num [abs_of_nonneg, abs_of_nonpos, max_def]
  · norm_num [BinomialRand.checkValidity, cppTrunc, floorThreeHalvesQ]
  · simp only [BinomialRand.fitProbabilityMLE]
    norm_num [BinomialRand.checkValidity, cppTrunc, floorThreeHalvesQ]
  · simp only [BinomialRand.fitProbabilityMLE, sampleMean,
      BinomialRand.setParameters, BinomialRand.setGeneratorConstants,
      BinomialRand.getIdOfUsedGenerator, areClose, opsZ]
    norm_num [BinomialRand.checkValidity, cppTrunc, floorThreeHalvesQ,
      abs_of_nonneg, abs_of_nonpos, max_def]

/-- C2 as amended: `fitProbabilityMLE` and `fitProbabilityMM` first check
every sample value — truncated to `int` — against `[0, n]`, fail closed
(returning `false` with the instance untouched) when the check rejects, and
update the parameters only when it passes; `fitProbabilityBayes` performs no
validity check and returns success unconditionally. -/
theorem binomialFitAmended (ops : MathOps) (B : BinomialRand)
    (sample : List ℚ) :
    (B.checkValidity sample = false →
      B.fitProbabilityMLE ops sample = (false, B) ∧
      B.fitProbabilityMM ops sample = (false, B)) ∧
    (B.checkValidity sample = true →
      B.fitProbabilityMLE ops sample =
        (true, BinomialRand.setParameters ops B B.n
          (sampleMean sample / (B.n : ℚ))) ∧
      B.fitProbabilityMM ops sample = B.fitProbabilityMLE ops sample) ∧
    (B.checkValidity sample = true ↔
      ∀ v ∈ sample, 0 ≤ cppTrunc v ∧ cppTrunc v ≤ B.n) ∧
    (∀ (betaMean : ℚ → ℚ → ℚ) (prior : BetaPrior),
      (B.fitProbabilityBayes ops betaMean prior sample).1 = true) := by
  refine ⟨?_, ?_, ?_, ?_⟩
  · intro h
    constructor
    all_goals
      simp only [BinomialRand.fitProbabilityMLE, BinomialRand.fitProbabilityMM,
        h, Bool.false_eq_true, if_false]
  · intro h
    constructor
    all_goals
      simp only [BinomialRand.fitProbabilityMLE, BinomialRand.fitProbabilityMM,
        h, if_true]
  · simp [BinomialRand.checkValidity, List.all_eq_true]
  · intro betaMean prior
    rfl

/-- Witness for the amended C2, on the `Binomial(1, 1/2)` instance with the
rejected sample `[2]` and the accepted sample `[0]`. -/
theorem binomialFitAmendedWitness :
    B0.fitProbabilityMLE opsZ [2] = (false, B0) ∧
    B0.fitProbabilityMM opsZ [2] = (false, B0) ∧
    B0.fitProbabilityMLE opsZ [0] =
      (true, BinomialRand.setParameters opsZ B0 B0.n
        (sampleMean [0] / (B0.n : ℚ))) ∧
    (B0.fitProbabilityBayes opsZ betaMeanStd ⟨1, 1⟩ [2]).1 = true := by
  have hfalse : B0.checkValidity [2] = false := by
    rw [B0Eval]
    norm_num [BinomialRand.checkValidity, cppTrunc, floorTwoQ]
  have htrue : B0.checkValidity [0] = true := by
    rw [B0Eval]
    norm_num [BinomialRand.checkValidity, cppTrunc]
  exact ⟨((binomialFitAmended opsZ B0 [2]).1 hfalse).1,
    ((binomialFitAmended opsZ B0 [2]).1 hfalse).2,
    ((binomialFitAmended opsZ B0 [0]).2.1 htrue).1,
    (binomialFitAmended opsZ B0 [2]).2.2.2 betaMeanStd ⟨1, 1⟩⟩

/-- Witness for C6 on the waiting-regime instance `Binomial(300, 0.99)` and
the rejection-regime instance `Binomial(1000, 0.3)`. -/
theorem binomialVariateReflectionWitness :
    stW.variate opsZ rngOne pos0 =
      (let w := BinomialRand.variateWaiting rngOne stW.n pos0
       ((if stW.p ≤ 0.5 then w.1 else stW.n - w.1), w.2)) ∧
    stR.variate opsZ rngOne pos0 =
      (let y := stR.variateRejection opsZ rngOne billion pos0
       let y1 := if 0 < stR.pRes then
           (let w := BinomialRand.variateWaiting rngOne (stR.n - y.1) y.2
            (y.1 + w.1, w.2))
         else y
       ((if 0.5 < stR.p then stR.n - y1.1 else y1.1), y1.2)) :=
  ⟨(binomialVariateReflection opsZ stW rngOne pos0).1 stWId,
   (binomialVariateReflection opsZ stR rngOne pos0).2 stRId⟩

/-- Witness for C10 on the degenerate instances `Binomial(1, 0)` and
`Binomial(1, 1)`. -/
theorem binomialSampleShortCircuitWitness :
    B1z.sample opsZ [5, 7] rngOne pos0 =
      (([5, 7] : List ℤ).map (fun _ => 0), pos0) ∧
    B2.sample opsZ [5, 7] rngOne pos0 =
      (([5, 7] : List ℤ).map (fun _ => B2.n), pos0) ∧
    (B2.variate opsZ rngOne pos0).2 ≠ pos0 :=
  ⟨(binomialSampleShortCircuit opsZ B1z [5, 7] rngOne pos0).1 B1zp,
   (binomialSampleShortCircuit opsZ B2 [5, 7] rngOne pos0).2.1 B2Eval.2.2,
   (binomialSampleShortCircuit opsZ B2 [5, 7] rngOne pos0).2.2
     (le_of_eq B2Eval.2.1.symm)⟩

/-!
## Boundary-search characterization for `ExpectedValue`
-/

section BoundarySearch

variable (φ : ℚ → ℚ) (step : ℚ)

/-- The boundary search is exhausted (the NaN case) exactly when every one of
its `fuel` probe points — `x + i*step` for `i = 1 .. fuel` — keeps the
integrand's magnitude above the `1e-10` threshold. -/
theorem boundarySearch_none_iff : ∀ (fuel : ℕ) (x : ℚ),
    (boundarySearch φ step x fuel = none ↔
      ∀ i : ℕ, 1 ≤ i → i ≤ fuel → 1e-10 < |φ (x + i * step)|) := by
  intro fuel
  induction fuel with
  | zero =>
    intro x
    constructor
    · intro _ i h1 h2
      exact absurd h2 (by omega)
    · intro _
      rfl
  | succ fuel ih =>
    intro x
    rw [boundarySearch]
    split
    · rename_i h
      constructor
      · intro habs
        exact absurd habs (by simp)
      · intro hall
        exfalso
        have h1 := hall 1 le_rfl (by omega)
        rw [Nat.cast_one, one_mul] at h1
        linarith
    · rename_i h
      rw [ih (x + step)]
      constructor
      · intro hall i h1 h2
        match i, h1 with
        | 1, _ =>
          rw [Nat.cast_one, one_mul]
          exact lt_of_not_le h
        | (j + 2), _ =>
          have hj := hall (j + 1) (by omega) (by omega)
          have harith : x + step + ((j + 1 : ℕ) : ℚ) * step =
              x + ((j + 2 : ℕ) : ℚ) * step := by
            push_cast
            ring
          rw [harith] at hj
          exact hj
      · intro hall i h1 h2
        have hj := hall (i + 1) (by omega) (by omega)
        have harith : x + ((i + 1 : ℕ) : ℚ) * step =
            x + step + (i : ℚ) * step := by
          push_cast
          ring
        rw [harith] at hj
        exact hj

/-- A successful boundary search stops at the first probe point (within the
fuel budget) whose integrand magnitude falls to the `1e-10` threshold. -/
theorem boundarySearch_some : ∀ (fuel : ℕ) (x l : ℚ),
    boundarySearch φ step x fuel = some l →
    ∃ i : ℕ, 1 ≤ i ∧ i ≤ fuel ∧ l = x + i * step ∧ |φ l| ≤ 1e-10 ∧
      ∀ j : ℕ, 1 ≤ j → j < i → 1e-10 < |φ (x + j * step)| := by
  intro fuel
  induction fuel with
  | zero =>
    intro x l habs
    exact absurd habs (by simp [boundarySearch])
  | succ fuel ih =>
    intro x l
    rw [boundarySearch]
    split
    · rename_i h
      intro hsome
      have hl : x + step = l := Option.some_injective _ hsome
      refine ⟨1, le_rfl, by omega, ?_, ?_, ?_⟩
      · rw [Nat.cast_one, one_mul]
        exact hl.symm
      · rw [← hl]
        exact h
      · intro j hj1 hj2
        exact absurd (lt_of_le_of_lt hj1 hj2) (by omega)
    · rename_i h
      intro hsome
      obtain ⟨i, h1, h2, h3, h4, h5⟩ := ih (x + step) l hsome
      refine ⟨i + 1, by omega, by omega, ?_, h4, ?_⟩
      · rw [h3]
        push_cast
        ring
      · intro j hj1 hj2
        match j, hj1 with
        | 1, _ =>
          rw [Nat.cast_one, one_mul]
          exact lt_of_not_le h
        | (k + 2), _ =>
          have hk := h5 (k + 1) (by omega) (by omega)
          have harith : x + step + ((k + 1 : ℕ) : ℚ) * step =
              x + ((k + 2 : ℕ) : ℚ) * step := by
            push_cast
            ring
          rw [harith] at hk
          exact hk

end BoundarySearch

set_option maxHeartbeats 2000000 in
/-- C7: `ExpectedValue(g, startPoint)` searches each direction
independently, probing `startPoint ± i·Variance()` for `i = 1 .. 1000`
until the guarded integrand's magnitude falls to `1e-10`; it returns `none`
(the NaN) exactly when one of the two searches exhausts its 1000 steps, and
otherwise the adaptive-Simpson integral of the integrand over the two
discovered boundaries with tolerance `1e-10`. -/
theorem expectedValueSpec (D : ContinuousDistribution) (g : ℚ → ℚ) (s : ℚ) :
    (ExpectedValue D g s = none ↔
      boundarySearch (integrandOf D g) (-D.variance) s 1000 = none ∨
      boundarySearch (integrandOf D g) D.variance s 1000 = none) ∧
    (∀ lb ub,
      boundarySearch (integrandOf D g) (-D.variance) s 1000 = some lb →
      boundarySearch (integrandOf D g) D.variance s 1000 = some ub →
      ExpectedValue D g s =
        some (integral (integrandOf D g) lb ub (1e-10))) ∧
    (boundarySearch (integrandOf D g) (-D.variance) s 1000 = none ↔
      ∀ i : ℕ, 1 ≤ i → i ≤ 1000 →
        1e-10 < |integrandOf D g (s - i * D.variance)|) ∧
    (boundarySearch (integrandOf D g) D.variance s 1000 = none ↔
      ∀ i : ℕ, 1 ≤ i → i ≤ 1000 →
        1e-10 < |integrandOf D g (s + i * D.variance)|) ∧
    (∀ lb,
      boundarySearch (integrandOf D g) (-D.variance) s 1000 = some lb →
      ∃ i : ℕ, 1 ≤ i ∧ i ≤ 1000 ∧ lb = s - i * D.variance ∧
        |integrandOf D g lb| ≤ 1e-10 ∧
        ∀ j : ℕ, 1 ≤ j → j < i →
          1e-10 < |integrandOf D g (s - j * D.variance)|) ∧
    (∀ ub,
      boundarySearch (integrandOf D g) D.variance s 1000 = some ub →
      ∃ i : ℕ, 1 ≤ i ∧ i ≤ 1000 ∧ ub = s + i * D.variance ∧
        |integrandOf D g ub| ≤ 1e-10 ∧
        ∀ j : ℕ, 1 ≤ j → j < i →
          1e-10 < |integrandOf D g (s + j * D.variance)|) := by
  have hconv : ∀ i : ℕ, s + (i : ℚ) * -D.variance = s - i * D.variance := by
    intro i
    ring
  refine ⟨?_, ?_, ?_, ?_, ?_, ?_⟩
  · generalize h1 : boundarySearch (integrandOf D g) (-D.variance) s 1000 = r1
    generalize h2 : boundarySearch (integrandOf D g) D.variance s 1000 = r2
    rw [ExpectedValue, h1, h2]
    cases r1 with
    | none => exact ⟨fun _ => Or.inl rfl, fun _ => rfl⟩
    | some lb =>
      cases r2 with
      | none => exact ⟨fun _ => Or.inr rfl, fun _ => rfl⟩
      | some ub =>
        exact ⟨fun habs => Option.noConfusion habs,
          fun habs => habs.elim (fun h => Option.noConfusion h)
            (fun h => Option.noConfusion h)⟩
  · intro lb ub h1 h2
    rw [ExpectedValue, h1, h2]
  · rw [boundarySearch_none_iff]
    constructor
    · intro hall i hi1 hi2
      rw [← hconv i]
      exact hall i hi1 hi2
    · intro hall i hi1 hi2
      rw [hconv i]
      exact hall i hi1 hi2
  · exact boundarySearch_none_iff (integrandOf D g) D.variance 1000 s
  · intro lb h1
    obtain ⟨i, hi1, hi2, hi3, hi4, hi5⟩ :=
      boundarySearch_some (integrandOf D g) (-D.variance) 1000 s lb h1
    refine ⟨i, hi1, hi2, by rw [hi3, hconv], hi4, ?_⟩
    intro j hj1 hj2
    rw [← hconv j]
    exact hi5 j hj1 hj2
  · exact boundarySearch_some (integrandOf D g) D.variance 1000 s

/-- A concrete distribution (unit variance) for the `ExpectedValue`
witness. -/
def Dev : ContinuousDistribution := ⟨fun _ => 0, fun _ => 0, some 0, 1⟩

/-- The zero integrand for the `ExpectedValue` witness. -/
def gZero : ℚ → ℚ := fun _ => 0

/-- Witness for C7: with a unit variance and the zero integrand both searches
stop at their first probe, and `ExpectedValue` integrates over `[-1, 1]`. -/
theorem expectedValueSpecWitness :
    ExpectedValue Dev gZero 0 =
      some (integral (integrandOf Dev gZero) (-1) 1 (1e-10)) := by
  have hlow : boundarySearch (integrandOf Dev gZero) (-Dev.variance) 0 1000 =
      some (-1) := by
    rw [boundarySearch]
    norm_num [integrandOf, gZero, Dev]
  have hup : boundarySearch (integrandOf Dev gZero) Dev.variance 0 1000 =
      some 1 := by
    rw [boundarySearch]
    norm_num [integrandOf, gZero, Dev]
  exact (expectedValueSpec Dev gZero 0).2.1 (-1) 1 hlow hup

/-!
## The Binomial cumulative function over `ℝ`
(`BinomialRand::F`, lines 109-116, on top of `RandMath::regularizedBetaFun`)

`RandMath::regularizedBetaFun` is declared in `RandMath.h` but its
implementation file is not part of the sources; it is modelled here from the
specification as the mathematical regularized incomplete beta function, at
the positive-integer arguments `BinomialRand::F` uses.
-/

/-- Modelled from the spec: the incomplete beta function
`∫ t in 0..x, t^(a-1) * (1-t)^(b-1)` (`RandMath::incompleteBetaFun`, whose
implementation file is not in the sources), at positive integer `a, b`. -/
noncomputable def incompleteBetaFun (x : ℝ) (a b : ℕ) : ℝ :=
  ∫ t in (0 : ℝ)..x, t ^ (a - 1) * (1 - t) ^ (b - 1)

/-- Modelled from the spec: `RandMath::betaFun`, documented in `RandMath.h`
as `Γ(a) Γ(b) / Γ(a + b)`, specialized to the positive integer arguments
used by `BinomialRand::F`, where it equals
`(a-1)! (b-1)! / (a+b-1)!`. -/
noncomputable def betaFun (a b : ℕ) : ℝ :=
  ((a - 1).factorial * (b - 1).factorial : ℕ) / ((a + b - 1).factorial : ℕ)

/-- Modelled from the spec: `RandMath::regularizedBetaFun(x, a, b)` (the
regularized incomplete beta function; implementation file not in the
sources), at positive integer `a, b`. -/
noncomputable def regularizedBetaFun (x : ℝ) (a b : ℕ) : ℝ :=
  incompleteBetaFun x a b / betaFun a b

/-- `BinomialRand::F(k)`, translated from lines 109-116: `0` for `k < 0`,
`1` for `k ≥ n`, and `regularizedBetaFun(q, n - k, 1 + k)` in between, with
`q = 1 - p`. -/
noncomputable def binomialF (n : ℤ) (p : ℝ) (k : ℤ) : ℝ :=
  if k < 0 then 0
  else if n ≤ k then 1
  else regularizedBetaFun (1 - p) (n - k).toNat (1 + k).toNat

/-- The unnormalized beta integrand primitive `∫ t in 0..q, t^a * (1-t)^b`
with explicit natural exponents, used to reason about
`regularizedBetaFun`. -/
noncomputable def Jint (a b : ℕ) (q : ℝ) : ℝ :=
  ∫ t in (0 : ℝ)..q, t ^ a * (1 - t) ^ b

/-- The beta integrand is interval-integrable (it is continuous). -/
theorem JintIntegrable (a b : ℕ) (c d : ℝ) :
    IntervalIntegrable (fun t : ℝ => t ^ a * (1 - t) ^ b)
      MeasureTheory.volume c d :=
  (((continuous_pow a).mul
    ((continuous_const.sub continuous_id).pow b))).intervalIntegrable c d

/-- Derivative of `u^(A+1) * (1-u)^(B+1)`. -/
theorem hasDerivAtBetaProd (A B : ℕ) (t : ℝ) :
    HasDerivAt (fun u : ℝ => u ^ (A + 1) * (1 - u) ^ (B + 1))
      (((A : ℝ) + 1) * t ^ A * (1 - t) ^ (B + 1) -
        ((B : ℝ) + 1) * (t ^ (A + 1) * (1 - t) ^ B)) t := by
  have h1 : HasDerivAt (fun u : ℝ => u ^ (A + 1))
      (((A : ℝ) + 1) * t ^ A) t := by
    simpa using hasDerivAt_pow (A + 1) t
  have hin : HasDerivAt (fun u : ℝ => 1 - u) (-1) t :=
    (hasDerivAt_id t).const_sub 1
  have h2 : HasDerivAt (fun u : ℝ => (1 - u) ^ (B + 1))
      (-(((B : ℝ) + 1) * (1 - t) ^ B)) t := by
    have := hin.pow (B + 1)
    simpa using this
  have hmul := h1.mul h2
  convert hmul using 1
  ring

/-- The fundamental integration-by-parts step between consecutive beta
integrals:
`(A+1) ∫ t^A (1-t)^(B+1) - (B+1) ∫ t^(A+1) (1-t)^B = q^(A+1) (1-q)^(B+1)`. -/
theorem JintStep (A B : ℕ) (q : ℝ) :
    ((A : ℝ) + 1) * Jint A (B + 1) q - ((B : ℝ) + 1) * Jint (A + 1) B q =
      q ^ (A + 1) * (1 - q) ^ (B + 1) := by
  have key : (∫ t in (0 : ℝ)..q,
      (((A : ℝ) + 1) * t ^ A * (1 - t) ^ (B + 1) -
        ((B : ℝ) + 1) * (t ^ (A + 1) * (1 - t) ^ B))) =
      q ^ (A + 1) * (1 - q) ^ (B + 1) -
        (0 : ℝ) ^ (A + 1) * (1 - 0) ^ (B + 1) := by
    exact intervalIntegral.integral_eq_sub_of_hasDerivAt
      (fun t _ => hasDerivAtBetaProd A B t)
      ((((continuous_const.mul (continuous_pow A)).mul
          ((continuous_const.sub continuous_id).pow (B + 1))).sub
        (continuous_const.mul ((continuous_pow (A + 1)).mul
          ((continuous_const.sub continuous_id).pow B)))).intervalIntegrable
        0 q)
  have hInt1 : IntervalIntegrable
      (fun t : ℝ => ((A : ℝ) + 1) * t ^ A * (1 - t) ^ (B + 1))
      MeasureTheory.volume 0 q :=
    ((continuous_const.mul (continuous_pow A)).mul
      ((continuous_const.sub continuous_id).pow (B + 1))).intervalIntegrable
      0 q
  have hInt2 : IntervalIntegrable
      (fun t : ℝ => ((B : ℝ) + 1) * (t ^ (A + 1) * (1 - t) ^ B))
      MeasureTheory.volume 0 q :=
    (continuous_const.mul ((continuous_pow (A + 1)).mul
      ((continuous_const.sub continuous_id).pow B))).intervalIntegrable 0 q
  rw [intervalIntegral.integral_sub hInt1 hInt2] at key
  have hc1 : (∫ t in (0 : ℝ)..q, ((A : ℝ) + 1) * t ^ A * (1 - t) ^ (B + 1)) =
      ((A : ℝ) + 1) * Jint A (B + 1) q := by
    rw [Jint, ← intervalIntegral.integral_const_mul]
    congr 1
    funext t
    ring
  have hc2 : (∫ t in (0 : ℝ)..q, ((B : ℝ) + 1) * (t ^ (A + 1) * (1 - t) ^ B)) =
      ((B : ℝ) + 1) * Jint (A + 1) B q := by
    rw [Jint, ← intervalIntegral.integral_const_mul]
  rw [hc1, hc2] at key
  rw [key]
  rw [zero_pow (Nat.succ_ne_zero A)]
  ring

/-- The beta integral is nonnegative over `[0, q] ⊆ [0, 1]`. -/
theorem JintNonneg (a b : ℕ) (q : ℝ) (h0 : 0 ≤ q) (h1 : q ≤ 1) :
    0 ≤ Jint a b q :=
  intervalIntegral.integral_nonneg h0 fun u hu =>
    mul_nonneg (pow_nonneg hu.1 _) (pow_nonneg (by linarith [hu.2]) _)

/-- Closed form of the beta integral with trivial first exponent. -/
theorem JintOneSub (B : ℕ) (q : ℝ) :
    Jint 0 B q = (1 - (1 - q) ^ (B + 1)) / (B + 1) := by
  have hBne : ((B : ℝ) + 1) ≠ 0 := by positivity
  have hder : ∀ t ∈ Set.uIcc (0 : ℝ) q,
      HasDerivAt (fun u : ℝ => -((1 - u) ^ (B + 1) / ((B : ℝ) + 1)))
        ((1 - t) ^ B) t := by
    intro t _
    have hin : HasDerivAt (fun u : ℝ => 1 - u) (-1) t :=
      (hasDerivAt_id t).const_sub 1
    have h2 := ((hin.pow (B + 1)).div_const ((B : ℝ) + 1)).neg
    convert h2 using 1
    field_simp
  have key := intervalIntegral.integral_eq_sub_of_hasDerivAt hder
    (((continuous_const.sub continuous_id).pow B).intervalIntegrable 0 q)
  rw [Jint]
  simp only [pow_zero, one_mul]
  rw [key]
  field_simp
  ring

/-- `betaFun` is positive at positive integer arguments. -/
theorem betaFunPos (a b : ℕ) : 0 < betaFun a b := by
  rw [betaFun]
  have h1 : (0 : ℝ) < ((a - 1).factorial * (b - 1).factorial : ℕ) := by
    push_cast
    exact mul_pos (by exact_mod_cast (a - 1).factorial_pos)
      (by exact_mod_cast (b - 1).factorial_pos)
  exact div_pos h1 (by exact_mod_cast (a + b - 1).factorial_pos)

/-- `regularizedBetaFun` at successor arguments, in terms of `Jint`. -/
theorem regularizedBetaFunEq (A B : ℕ) (q : ℝ) :
    regularizedBetaFun q (A + 1) (B + 1) =
      Jint A B q / betaFun (A + 1) (B + 1) := by
  rw [regularizedBetaFun, incompleteBetaFun, Jint]
  simp only [Nat.add_sub_cancel]

/-- The exact increment between consecutive in-range values of the
regularized incomplete beta function: stepping `j ↦ j+1` adds the binomial
term `N!/((a+1)!(j+1)!) * q^(a+1) * (1-q)^(j+1)` (with `N = a+j+2`). -/
theorem regularizedBetaFunStepIdentity (a j : ℕ) (q : ℝ) :
    regularizedBetaFun q (a + 1) (j + 2) - regularizedBetaFun q (a + 2) (j + 1)
      = (((a + j + 2).factorial : ℝ) /
          ((a + 1).factorial * (j + 1).factorial)) *
        (q ^ (a + 1) * (1 - q) ^ (j + 1)) := by
  have e1 : regularizedBetaFun q (a + 1) (j + 2) =
      Jint a (j + 1) q / betaFun (a + 1) (j + 2) :=
    regularizedBetaFunEq a (j + 1) q
  have e2 : regularizedBetaFun q (a + 2) (j + 1) =
      Jint (a + 1) j q / betaFun (a + 2) (j + 1) :=
    regularizedBetaFunEq (a + 1) j q
  rw [e1, e2, ← JintStep a j q]
  rw [betaFun, betaFun]
  have ha : (a + 1) - 1 = a := by omega
  have hb : (j + 2) - 1 = j + 1 := by omega
  have hc : (a + 1) + (j + 2) - 1 = a + j + 2 := by omega
  have hd : (a + 2) - 1 = a + 1 := by omega
  have he : (j + 1) - 1 = j := by omega
  have hf : (a + 2) + (j + 1) - 1 = a + j + 2 := by omega
  rw [ha, hb, hc, hd, he, hf]
  have hfa : ((a.factorial : ℝ)) ≠ 0 := by
    exact_mod_cast a.factorial_ne_zero
  have hfa1 : (((a + 1).factorial : ℝ)) ≠ 0 := by
    exact_mod_cast (a + 1).factorial_ne_zero
  have hfj : ((j.factorial : ℝ)) ≠ 0 := by
    exact_mod_cast j.factorial_ne_zero
  have hfj1 : (((j + 1).factorial : ℝ)) ≠ 0 := by
    exact_mod_cast (j + 1).factorial_ne_zero
  have hfN : (((a + j + 2).factorial : ℝ)) ≠ 0 := by
    exact_mod_cast (a + j + 2).factorial_ne_zero
  rw [Nat.factorial_succ a, Nat.factorial_succ j]
  push_cast
  field_simp
  ring

/-- Consecutive in-range values of the regularized incomplete beta function
are ordered (the increment is nonnegative on `q ∈ [0, 1]`). -/
theorem regularizedBetaFunStepLe (a j : ℕ) (q : ℝ) (h0 : 0 ≤ q)
    (h1 : q ≤ 1) :
    regularizedBetaFun q (a + 2) (j + 1) ≤
      regularizedBetaFun q (a + 1) (j + 2) := by
  have hid := regularizedBetaFunStepIdentity a j q
  have hM : (0 : ℝ) ≤ ((a + j + 2).factorial : ℝ) /
      ((a + 1).factorial * (j + 1).factorial) := by positivity
  have hq : (0 : ℝ) ≤ q ^ (a + 1) * (1 - q) ^ (j + 1) :=
    mul_nonneg (pow_nonneg h0 _) (pow_nonneg (by linarith) _)
  nlinarith [mul_nonneg hM hq]

/-- The regularized incomplete beta function is nonnegative on
`q ∈ [0, 1]`. -/
theorem regularizedBetaFunNonneg (A B : ℕ) (q : ℝ) (h0 : 0 ≤ q)
    (h1 : q ≤ 1) : 0 ≤ regularizedBetaFun q (A + 1) (B + 1) := by
  rw [regularizedBetaFunEq]
  exact div_nonneg (JintNonneg A B q h0 h1) (le_of_lt (betaFunPos _ _))

/-- Value of the regularized incomplete beta function at first argument 1:
`I_q(1, B+1) = 1 - (1-q)^(B+1)`. -/
theorem regularizedBetaFunTop (B : ℕ) (q : ℝ) :
    regularizedBetaFun q 1 (B + 1) = 1 - (1 - q) ^ (B + 1) := by
  have h := regularizedBetaFunEq 0 B q
  rw [show (0 : ℕ) + 1 = 1 from rfl] at h
  rw [h, JintOneSub, betaFun]
  have ha : (1 : ℕ) - 1 = 0 := by omega
  have hb : (B + 1) - 1 = B := by omega
  have hc : 1 + (B + 1) - 1 = B + 1 := by omega
  rw [ha, hb, hc, Nat.factorial_zero, Nat.factorial_succ B]
  have hfj : ((B.factorial : ℝ)) ≠ 0 := by
    exact_mod_cast B.factorial_ne_zero
  have hB1 : ((B : ℝ) + 1) ≠ 0 := by positivity
  push_cast
  field_simp

/-- Monotonicity of the in-range values `j ↦ I_q(N-j, j+1)` of the
regularized incomplete beta function. -/
theorem regularizedBetaFunMono (N : ℕ) (q : ℝ) (h0 : 0 ≤ q) (h1 : q ≤ 1) :
    ∀ j2 j1 : ℕ, j1 ≤ j2 → j2 < N →
      regularizedBetaFun q (N - j1) (j1 + 1) ≤
        regularizedBetaFun q (N - j2) (j2 + 1) := by
  intro j2
  induction j2 with
  | zero =>
    intro j1 hle _
    have hj : j1 = 0 := by omega
    rw [hj]
  | succ j2 ih =>
    intro j1 hle hlt
    rcases Nat.eq_or_lt_of_le hle with heq | hlt1
    · rw [heq]
    · have hstep : regularizedBetaFun q (N - j2) (j2 + 1) ≤
          regularizedBetaFun q (N - (j2 + 1)) ((j2 + 1) + 1) := by
        obtain ⟨a, ha⟩ : ∃ a, N - j2 = a + 2 := ⟨N - j2 - 2, by omega⟩
        have ha2 : N - (j2 + 1) = a + 1 := by omega
        rw [ha, ha2]
        exact regularizedBetaFunStepLe a j2 q h0 h1
      exact le_trans (ih j1 (by omega) (by omega)) hstep

/-- Every in-range value of the regularized incomplete beta function is at
most 1 on `q ∈ [0, 1]`. -/
theorem regularizedBetaFunLeOne (N : ℕ) (q : ℝ) (h0 : 0 ≤ q) (h1 : q ≤ 1)
    (j : ℕ) (hj : j < N) :
    regularizedBetaFun q (N - j) (j + 1) ≤ 1 := by
  have hchain := regularizedBetaFunMono N q h0 h1 (N - 1) j (by omega)
    (by omega)
  obtain ⟨B, hB⟩ : ∃ B, N = B + 1 := ⟨N - 1, by omega⟩
  have hN1 : N - (N - 1) = 1 := by omega
  have hN2 : (N - 1) + 1 = B + 1 := by omega
  rw [hN1, hN2, regularizedBetaFunTop] at hchain
  have hpow : (0 : ℝ) ≤ (1 - q) ^ (B + 1) := pow_nonneg (by linarith) _
  linarith

/-- Translation of the in-range case of `binomialF` to successor-shaped
natural arguments. -/
theorem binomialFInRange (n : ℤ) (p : ℝ) (k : ℤ) (h0 : 0 ≤ k) (h1 : k < n) :
    binomialF n p k =
      regularizedBetaFun (1 - p) (n.toNat - k.toNat) (k.toNat + 1) := by
  rw [binomialF, if_neg (not_lt.mpr h0), if_neg (not_le.mpr h1)]
  have ha : (n - k).toNat = n.toNat - k.toNat := by omega
  have hb : (1 + k).toNat = k.toNat + 1 := by omega
  rw [ha, hb]

/-- C8: for every Binomial instance (`n ≥ 1`, `p ∈ [0, 1]`), the cumulative
function `F` is non-decreasing over the integers, takes values in `[0, 1]`,
and equals `0` for every `k < 0` and `1` for every `k ≥ n`. -/
theorem binomialCumulativeSpec (n : ℤ) (p : ℝ) (hn : 1 ≤ n) (hp0 : 0 ≤ p)
    (hp1 : p ≤ 1) :
    (∀ k k' : ℤ, k ≤ k' → binomialF n p k ≤ binomialF n p k') ∧
    (∀ k : ℤ, 0 ≤ binomialF n p k ∧ binomialF n p k ≤ 1) ∧
    (∀ k : ℤ, k < 0 → binomialF n p k = 0) ∧
    (∀ k : ℤ, n ≤ k → binomialF n p k = 1) := by
  have hq0 : (0 : ℝ) ≤ 1 - p := by linarith
  have hq1 : (1 : ℝ) - p ≤ 1 := by linarith
  have hzero : ∀ k : ℤ, k < 0 → binomialF n p k = 0 := by
    intro k hk
    rw [binomialF, if_pos hk]
  have hone : ∀ k : ℤ, n ≤ k → binomialF n p k = 1 := by
    intro k hk
    rw [binomialF, if_neg (by omega), if_pos hk]
  have hbounds : ∀ k : ℤ, 0 ≤ binomialF n p k ∧ binomialF n p k ≤ 1 := by
    intro k
    rcases lt_or_le k 0 with hk | hk
    · rw [hzero k hk]
      norm_num
    · rcases le_or_lt n k with hk2 | hk2
      · rw [hone k hk2]
        norm_num
      · rw [binomialFInRange n p k hk hk2]
        have hjN : k.toNat < n.toNat := by omega
        constructor
        · obtain ⟨A, hA⟩ : ∃ A, n.toNat - k.toNat = A + 1 :=
            ⟨n.toNat - k.toNat - 1, by omega⟩
          rw [hA]
          exact regularizedBetaFunNonneg A k.toNat (1 - p) hq0 hq1
        · exact regularizedBetaFunLeOne n.toNat (1 - p) hq0 hq1 k.toNat hjN
  refine ⟨?_, hbounds, hzero, hone⟩
  intro k k' hkk
  rcases lt_or_le k' 0 with hk' | hk'
  · rw [hzero k (by omega), hzero k' hk']
  · rcases lt_or_le k 0 with hk | hk
    · rw [hzero k hk]
      exact (hbounds k').1
    · rcases le_or_lt n k' with hk2' | hk2'
      · rw [hone k' hk2']
        exact (hbounds k).2
      · rcases le_or_lt n k with hk2 | hk2
        · rw [hone k hk2, hone k' (by omega)]
        · rw [binomialFInRange n p k hk hk2,
            binomialFInRange n p k' hk' hk2']
          exact regularizedBetaFunMono n.toNat (1 - p) hq0 hq1 k'.toNat
            k.toNat (by omega) (by omega)

/-- Witness for C8 on the instance `Binomial(2, 1/2)`. -/
theorem binomialCumulativeSpecWitness :
    (binomialF 2 (1/2) 0 ≤ binomialF 2 (1/2) 1) ∧
    (0 ≤ binomialF 2 (1/2) 1 ∧ binomialF 2 (1/2) 1 ≤ 1) ∧
    binomialF 2 (1/2) (-1) = 0 ∧ binomialF 2 (1/2) 5 = 1 := by
  have h := binomialCumulativeSpec 2 (1/2) (by norm_num) (by norm_num)
    (by norm_num)
  exact ⟨h.1 0 1 (by norm_num), h.2.1 1, h.2.2.1 (-1) (by norm_num),
    h.2.2.2 5 (by norm_num)⟩

end RandLib
